import Mathlib

/-!
# RENNEQUINEPOLIS: the delimiter-based record parser and the SQL statement emitter

Shallow embedding of `src/py/split.cpp` and `src/py/iterators.h`.

Text is a list of bytes (one `Nat` per C++ `char`).  A `std::string_view` is
modelled by the bytes it designates, an output stream by the bytes written to it.
-/

namespace Rennequin

/-- Text: one natural number per byte (`char`). -/
abbrev Bytes := List Nat

/-- The bytes of an ASCII string literal. -/
def cstr (s : String) : Bytes := s.toList.map Char.toNat

/-- UTF-8 encoding of a code point of the basic multilingual plane, as the
compiler stores a `"\uXXXX"` literal. -/
def utf8 (c : Nat) : Bytes :=
  if c < 0x80 then [c]
  else if c < 0x800 then [0xC0 + c / 64, 0x80 + c % 64]
  else [0xE0 + c / 4096, 0x80 + c / 64 % 64, 0x80 + c % 64]

/-! ## Separators (split.cpp lines 59-62, 155-157) -/

def DOUBLE_VLINE : Bytes := utf8 0x2016
def TRIANGLE_BULLET : Bytes := utf8 0x2023
def DOT_LEADER : Bytes := utf8 0x2024

def movie_delimiter : Bytes := TRIANGLE_BULLET
def record_delimiter : Bytes := DOUBLE_VLINE
def value_delimiter : Bytes := DOT_LEADER

/-! ## `std::string_view::find` -/

/-- Search of `mark` in the suffix `t` of a text, `t` starting at offset `i`:
the leftmost offset at which `mark` occurs, `none` standing for `npos`. -/
def findAt (mark : Bytes) : Bytes → Nat → Option Nat
  | [], i => if mark.isPrefixOf [] then some i else none
  | c :: t, i => if mark.isPrefixOf (c :: t) then some i else findAt mark t (i + 1)

/-- The call `s.find(mark, pos)`: the leftmost offset `>= pos` at which `mark`
occurs in `s`; `none` (that is `npos`) when there is none or `pos > s.size()`. -/
def find (s mark : Bytes) (pos : Nat) : Option Nat :=
  if pos ≤ s.length then findAt mark (s.drop pos) pos else none

/-- The expression `std::min(record.find(...), length)`: `npos` is the largest
`size_t`, so the minimum is `length` when nothing was found. -/
def minFind (r : Option Nat) (length : Nat) : Nat :=
  match r with
  | some p => min p length
  | none => length

/-! ## The field splitter (split.cpp lines 92-134) -/

/-- Raw record field iterator: the record text, the delimiter and the two
markers of the current field. -/
structure splitter where
  record : Bytes
  mark : Bytes
  begin : Nat
  end_ : Nat
deriving DecidableEq, Repr

/-- Constructor `splitter(_s, _delimiter)`. -/
def splitter.init (s mark : Bytes) : splitter :=
  { record := s, mark := mark, begin := 0, end_ := minFind (find s mark 0) s.length }

/-- The view returned by `operator*`: `end - begin` bytes from offset `begin`. -/
def splitter.deref (it : splitter) : Bytes :=
  (it.record.drop it.begin).take (it.end_ - it.begin)

/-- Pre-increment `operator++`. -/
def splitter.next (it : splitter) : splitter :=
  let length := it.record.length
  if it.begin < length then
    let next_stop := min (it.end_ + it.mark.length) length
    { it with begin := next_stop, end_ := minFind (find it.record it.mark next_stop) length }
  else it

/-- Post-increment `operator++(int)`: the state before the increment is
returned, the iterator itself advances. -/
def splitter.postInc (it : splitter) : splitter × splitter := (it, it.next)

/-! ## Records (split.cpp lines 167-255) -/

/-- Record field: a name and a value. -/
structure field where
  name : Bytes
  value : Bytes
deriving DecidableEq, Repr

def field.is_empty (f : field) : Bool := f.value.length == 0

/-- Generic record: the list of its fields. -/
structure record where
  fields : List field
deriving DecidableEq, Repr

/-- Constructor `record(const name_list&)`: one field per name, its value the
default (empty) view. -/
def record.ofNames (list : List Bytes) : record :=
  { fields := list.map (fun n => { name := n, value := [] }) }

def record.size (r : record) : Nat := r.fields.length

/-- The loop `for (auto& field: fields) field.value = *iterator++;`. -/
def parseFields : List field → splitter → List field
  | [], _ => []
  | f :: fs, it => { f with value := (it.postInc).1.deref } :: parseFields fs (it.postInc).2

/-- The call `record::parse(_str, _delimiter)`: the record after the call and
the returned number. -/
def record.parse (r : record) (str delim : Bytes) : record × Nat :=
  ({ fields := parseFields r.fields (splitter.init str delim) }, r.fields.length)

/-- Index resolution of `operator[]`: `index < 0 ? fields.size() + index : index`,
computed in `size_t`. -/
def record.resolve (r : record) (index : Int) : Nat :=
  if index < 0 then (((r.size : Int) + index) % (2 ^ 64 : Int)).toNat else index.toNat

/-- Field access `r[index]` (the empty field stands for an access outside the
vector, which the source leaves undefined). -/
def record.get (r : record) (index : Int) : field :=
  r.fields.getD (r.resolve index) { name := [], value := [] }

/-- Assignment `r[index].value = v`. -/
def record.setValue (r : record) (index : Int) (v : Bytes) : record :=
  { fields := r.fields.modify (fun f => { f with value := v }) (r.resolve index) }

def raw_movie_fields : List Bytes :=
  ["id", "title", "original_title", "release_date", "status",
   "vote_average", "vote_count", "runtime", "certification",
   "poster_path", "budget", "tag_line", "genre", "directors", "cast"].map cstr

def raw_genre_fields : List Bytes := ["id", "name"].map cstr

def raw_actor_fields : List Bytes := ["id", "actor_name", "character_name"].map cstr

def raw_director_fields : List Bytes := ["id", "director_name"].map cstr

/-! ## Quoting (split.cpp lines 64-72, 287-294) -/

/-- The characters written between the delimiters by the output operator of
`std::quoted(value, delim, escape)`: each character equal to `delim` or to
`escape` is preceded by `escape`. -/
def quotedBody (delim escape : Nat) : Bytes → Bytes
  | [] => []
  | c :: t =>
    if c == delim || c == escape then escape :: c :: quotedBody delim escape t
    else c :: quotedBody delim escape t

/-- Output of `os << std::quoted(value, delim, escape)`. -/
def quotedOut (delim escape : Nat) (value : Bytes) : Bytes :=
  [delim] ++ quotedBody delim escape value ++ [delim]

/-- The single quote character. -/
def SQUOTE : Nat := 39

/-- Output of `os << quote(value)`, where `quote(value)` is
`std::quoted(value, SQUOTE, SQUOTE)`. -/
def quote (value : Bytes) : Bytes := quotedOut SQUOTE SQUOTE value

/-- The value output operator
`operator << (std::ostream& os, const record::field::value_type& v)`,
that is `os << quote(v)`.  The source declares it after the stream iterator
template; no statement of the program calls it (see `writeValues`). -/
def writeValue (v : Bytes) : Bytes := quote v

/-- The loop of the input operator of `std::quoted(s, delim, escape)` once the
opening delimiter has been read: a character equal to `escape` is dropped and
the character after it is appended whatever it is; otherwise a character equal
to `delim` ends the extraction; the end of the input ends it too. -/
def quotedInLoop (delim escape : Nat) : Bytes → Bytes
  | [] => []
  | [c] => if c == escape then [] else if c == delim then [] else [c]
  | c :: c2 :: t =>
    if c == escape then c2 :: quotedInLoop delim escape t
    else if c == delim then []
    else c :: quotedInLoop delim escape (c2 :: t)

/-- White space of the classic locale. -/
def isspace (c : Nat) : Bool := c == 32 || (9 ≤ c && c ≤ 13)

/-- The string extracted by `is >> std::quoted(s, delim, escape)` from a stream
holding `buffer`, `s` being empty before: leading white space is skipped; when
the first character is `delim` the quoted text is read, otherwise the operator
behaves as `is >> s` (one white-space delimited word); when nothing can be read
`s` keeps its value. -/
def quotedIn (delim escape : Nat) (buffer : Bytes) : Bytes :=
  match buffer.dropWhile isspace with
  | [] => []
  | c :: t =>
    if c == delim then quotedInLoop delim escape t
    else (c :: t).takeWhile (fun x => !isspace x)

/-! ## The separator-joining output iterator (iterators.h) -/

/-- State of an `ostream_iterator` apart from the stream it points to: the
separator (absent when the pointer is null) and the count of increments. -/
structure ostream_iterator where
  delimiter : Option Bytes
  count : Nat
deriving DecidableEq, Repr

/-- The assignment `operator = (item)`: the stream after it; `write` is the
stream insertion of the item type. -/
def ostream_iterator.assign {α : Type} (it : ostream_iterator) (write : α → Bytes)
    (item : α) (os : Bytes) : Bytes :=
  let os1 := match it.count, it.delimiter with
    | 0, _ => os
    | _ + 1, none => os
    | _ + 1, some d => os ++ d
  os1 ++ write item

/-- Pre-increment `operator ++ ()`. -/
def ostream_iterator.inc (it : ostream_iterator) : ostream_iterator :=
  { it with count := it.count + 1 }

/-- Post-increment `operator ++ (int)`: the copy made before the increment and
the incremented iterator. -/
def ostream_iterator.postInc (it : ostream_iterator) : ostream_iterator × ostream_iterator :=
  (it, it.inc)

/-- The algorithm `std::copy_if(first, last, result, pred)` over the fields
`first .. last`, `result` being an `ostream_iterator` on the stream `os`:
`if (pred(*first)) { *result = *first; ++result; }` for each field. -/
def copy_if (write : field → Bytes) (pred : field → Bool) :
    List field → ostream_iterator → Bytes → Bytes
  | [], _, os => os
  | f :: fs, it, os =>
    if pred f then copy_if write pred fs it.inc (it.assign write f os)
    else copy_if write pred fs it os

/-! ## Ranges and record views (split.cpp lines 193-204, 245-284, 303-311) -/

/-- A pair of markers `start`, `end` into the field vector of a record. -/
structure range where
  fields : List field
  start : Nat
  end_ : Nat
deriving DecidableEq, Repr

/-- The fields from `start` up to `end`; `none` when the markers are not
ordered inside the vector (iterating such a range is undefined in the source). -/
def range.elems (rg : range) : Option (List field) :=
  if rg.start ≤ rg.end_ ∧ rg.end_ ≤ rg.fields.length then
    some ((rg.fields.drop rg.start).take (rg.end_ - rg.start))
  else none

/-- The call `record::names(r, first, last)`, that is `{ &r[first], &r[last] }`;
`record::values(r, first, last)` builds the same markers. -/
def record.names (r : record) (first last : Int) : range :=
  { fields := r.fields, start := r.resolve first, end_ := r.resolve last }

def record.values (r : record) (first last : Int) : range :=
  { fields := r.fields, start := r.resolve first, end_ := r.resolve last }

/-- Record view: a record and the two indices of the slice. -/
structure record_view where
  view : record
  begin : Int
  end_ : Int
deriving DecidableEq, Repr

/-- Constructor `record_view(r, first)`, whose `first` defaults to 0. -/
def record_view.ofRecord (r : record) (first : Int) : record_view :=
  { view := r, begin := first, end_ := (r.size : Int) }

def record_view.names (v : record_view) : range := record.names v.view v.begin v.end_

def record_view.values (v : record_view) : range := record.values v.view v.begin v.end_

/-- The fields a view ranges over. -/
def record_view.elems (v : record_view) : Option (List field) := v.names.elems

/-- Output of `os << range` for a range of names: the names of the fields whose
value is not empty, written through an `ostream_iterator` with separator
`", "`. -/
def writeNames (rg : range) : Option Bytes :=
  rg.elems.map (fun fs =>
    copy_if (fun f => f.name) (fun f => !f.is_empty) fs
      { delimiter := some (cstr ", "), count := 0 } [])

/-- Output of `os << range` for a range of values: the values of the fields
whose value is not empty, separator `", "`.  Each item is written by
`*os << item` inside the iterator template (iterators.h line 74), where `item`
is a `std::string_view`.  That expression is compiled with the template, before
the operator of split.cpp lines 293-294 is declared, and argument-dependent
lookup only searches namespace `std`: it selects the standard `string_view`
inserter, which writes the bytes of the value as they are.  The quoting
operator of lines 293-294 (`writeValue`) is never called by the program. -/
def writeValues (rg : range) : Option Bytes :=
  rg.elems.map (fun fs =>
    copy_if (fun f => f.value) (fun f => !f.is_empty) fs
      { delimiter := some (cstr ", "), count := 0 } [])

/-! ## The database formatters (split.cpp lines 327-402) -/

/-- Line terminator `DB::endl`. -/
def DB.endl : Bytes := cstr ";\n"

/-- MySQL `use`. -/
def MySQL.use (db_name : Option Bytes) : Bytes :=
  match db_name with
  | some n => cstr "USE " ++ n ++ DB.endl
  | none => []

/-- MySQL `list`: the set unchanged. -/
def MySQL.list (set : Bytes) : Bytes := set

/-- MySQL `insert`: the text written to `out`. -/
def MySQL.insert (table : Bytes) (view : record_view) : Option Bytes :=
  match writeNames view.names, writeValues view.values with
  | some ns, some vs =>
    some (cstr "INSERT IGNORE " ++ table ++ cstr "(" ++ ns ++ cstr ")"
      ++ cstr " VALUES (" ++ vs ++ cstr ")" ++ DB.endl)
  | _, _ => none

/-- PostgreSQL `use`. -/
def PostgreSQL.use (db_name : Option Bytes) : Bytes :=
  match db_name with
  | some n => cstr "USE " ++ n ++ DB.endl
  | none => []

/-- PostgreSQL `list`: the set enclosed in braces. -/
def PostgreSQL.list (set : Bytes) : Bytes := cstr "\x7b" ++ set ++ cstr "\x7d"

/-- PostgreSQL `insert`: the text written to `out`. -/
def PostgreSQL.insert (table : Bytes) (view : record_view) : Option Bytes :=
  match writeNames view.names, writeValues view.values with
  | some ns, some vs =>
    some (cstr "INSERT INTO " ++ table ++ cstr "(" ++ ns ++ cstr ")"
      ++ cstr " VALUES (" ++ vs ++ cstr ") ON CONFLICT DO NOTHING" ++ DB.endl)
  | _, _ => none

/-- The two database syntaxes behind the interface `DB`. -/
inductive DB where
  | MySQL
  | PostgreSQL
deriving DecidableEq, Repr

def DB.use : DB → Option Bytes → Bytes
  | .MySQL, n => MySQL.use n
  | .PostgreSQL, n => PostgreSQL.use n

def DB.list : DB → Bytes → Bytes
  | .MySQL, s => MySQL.list s
  | .PostgreSQL, s => PostgreSQL.list s

def DB.insert : DB → Bytes → record_view → Option Bytes
  | .MySQL, t, v => MySQL.insert t v
  | .PostgreSQL, t, v => PostgreSQL.insert t v

/-! ## Enumeration of sub-records, genre list, driver (split.cpp lines 405-502) -/

/-- The views visited by a loop `while (it.begin < it.record.size()) { ... *it++ ... }`,
in order; `none` when the loop is still running after `fuel` iterations. -/
def splitter.loop : Nat → splitter → Option (List Bytes)
  | 0, it => if it.begin < it.record.length then none else some []
  | fuel + 1, it =>
    if it.begin < it.record.length then
      (splitter.loop fuel (it.postInc).2).map (fun l => (it.postInc).1.deref :: l)
    else some []

/-- Body of the loop of `genres` over the enumerated sub-records:
`movie_genre.parse(view, value_delimiter); *out++ = movie_genre[1];`.  The
assignment writes the name through `*os << item` of iterators.h line 74, the
standard `string_view` inserter: the buffer receives the bytes of the name as
they are, without quotes. -/
def genresBody : List Bytes → record → ostream_iterator → Bytes → Bytes
  | [], _, _, buffer => buffer
  | v :: vs, movie_genre, out, buffer =>
    let g := (movie_genre.parse v value_delimiter).1
    genresBody vs g (out.postInc).2 ((out.postInc).1.assign (fun v => v) (g.get 1).value buffer)

/-- The function `genres(f)`: the string of genres of the field `f`. -/
def genres (f : field) : Option Bytes :=
  (splitter.loop f.value.length (splitter.init f.value record_delimiter)).map (fun views =>
    quotedIn SQUOTE SQUOTE
      (genresBody views (record.ofNames raw_genre_fields)
        { delimiter := some (cstr ","), count := 0 } []))

/-- Body of the director loop of `main`: the `insert` calls it makes, as pairs
of a table name and a record view. -/
def directorCalls (movie : record) : List Bytes → record → List (Bytes × record_view)
  | [], _ => []
  | v :: vs, director =>
    let dir := (director.parse v value_delimiter).1
    (cstr "people", record_view.ofRecord
        { fields := [{ name := cstr "id", value := (dir.get 0).value },
                     { name := cstr "full_name", value := (dir.get 1).value }] } 0)
    :: (cstr "directors", record_view.ofRecord
        { fields := [{ name := cstr "movie_id", value := (movie.get 0).value },
                     { name := cstr "director_id", value := (dir.get 0).value }] } 0)
    :: directorCalls movie vs dir

/-- Body of the actor loop of `main`. -/
def actorCalls (movie : record) : List Bytes → record → List (Bytes × record_view)
  | [], _ => []
  | v :: vs, actor =>
    let act := (actor.parse v value_delimiter).1
    (cstr "people", record_view.ofRecord
        { fields := [{ name := cstr "id", value := (act.get 0).value },
                     { name := cstr "full_name", value := (act.get 1).value }] } 0)
    :: (cstr "characters", record_view.ofRecord
        { fields := [{ name := cstr "movie_id", value := (movie.get 0).value },
                     { name := cstr "actor_id", value := (act.get 0).value },
                     { name := cstr "character_name", value := (act.get 2).value }] } 0)
    :: actorCalls movie vs act

/-- One iteration of the line loop of `main`, up to the movie record it leaves
and the `insert` calls it makes in order. -/
def lineCalls (db : DB) (movie : record) (line : Bytes) :
    Option (record × List (Bytes × record_view)) :=
  let movie1 := (movie.parse line movie_delimiter).1
  match genres (movie1.get (-3)) with
  | none => none
  | some g =>
    let movie2 := movie1.setValue (-3) (db.list g)
    let dirField := (movie2.get (-2)).value
    let castField := (movie2.get (-1)).value
    match splitter.loop dirField.length (splitter.init dirField record_delimiter),
          splitter.loop castField.length (splitter.init castField record_delimiter) with
    | some ds, some cs =>
      some (movie2,
        (cstr "movies", { view := movie2, begin := 0, end_ := -2 })
          :: (directorCalls movie2 ds (record.ofNames raw_director_fields)
              ++ actorCalls movie2 cs (record.ofNames raw_actor_fields)))
    | _, _ => none

/-- The statements written by a list of `insert` calls, one text per call. -/
def statements (db : DB) : List (Bytes × record_view) → Option (List Bytes)
  | [] => some []
  | (t, v) :: rest =>
    match db.insert t v, statements db rest with
    | some x, some xs => some (x :: xs)
    | _, _ => none

/-- One iteration of the line loop of `main`: the movie record it leaves and
the statements written, in order. -/
def lineStatements (db : DB) (movie : record) (line : Bytes) : Option (record × List Bytes) :=
  match lineCalls db movie line with
  | none => none
  | some (m, calls) => (statements db calls).map (fun l => (m, l))

/-- The line loop of `main` over the lines read: the text written. -/
def mainLoop (db : DB) : record → List Bytes → Option Bytes
  | _, [] => some []
  | movie, line :: rest =>
    match lineStatements db movie line with
    | none => none
    | some (m, stmts) => (mainLoop db m rest).map (fun o => stmts.flatten ++ o)

/-- The program once the database type is selected: the text written for an
optional database name and the input lines. -/
def main_ (db : DB) (db_name : Option Bytes) (lines : List Bytes) : Option Bytes :=
  (mainLoop db (record.ofNames raw_movie_fields) lines).map (fun o => db.use db_name ++ o)

/-! ## Specification-level splitting -/

/-- Cut at the leftmost occurrence of `d`: the text before it and the text
after it, `none` when `d` does not occur. -/
def cutFirst (d : Bytes) : Bytes → Option (Bytes × Bytes)
  | [] => if d.isPrefixOf [] then some ([], []) else none
  | c :: t =>
    if d.isPrefixOf (c :: t) then some ([], (c :: t).drop d.length)
    else (cutFirst d t).map (fun p => (c :: p.1, p.2))

/-- The pieces of a text cut at the successive leftmost occurrences of `d`,
with at most `fuel` cuts. -/
def piecesFuel (d : Bytes) : Nat → Bytes → List Bytes
  | 0, s => [s]
  | fuel + 1, s =>
    match cutFirst d s with
    | none => [s]
    | some (a, b) => a :: piecesFuel d fuel b

/-- The pieces `p_0 .. p_(m-1)` of a span cut at the successive leftmost
occurrences of the delimiter `d` (a span of `n` bytes has at most `n` cuts). -/
def pieces (d s : Bytes) : List Bytes := piecesFuel d s.length s

/-- Number of offsets of `s` at which `d` occurs. -/
def occurrences (d : Bytes) : Bytes → Nat
  | [] => if d.isPrefixOf [] then 1 else 0
  | c :: t => (if d.isPrefixOf (c :: t) then 1 else 0) + occurrences d t

/-- Joining texts with a delimiter between consecutive ones. -/
def joinWith (d : Bytes) : List Bytes → Bytes
  | [] => []
  | [x] => x
  | x :: y :: rest => x ++ d ++ joinWith d (y :: rest)

/-! ## Auxiliary definitions used in the statements -/

/-- The splitter over `s` whose cursor stands at offset `pos`. -/
def splitter.atPos (s mark : Bytes) (pos : Nat) : splitter :=
  { record := s, mark := mark, begin := pos, end_ := minFind (find s mark pos) s.length }

/-- The views produced by `n` successive `*it++`. -/
def splitter.derefs : Nat → splitter → List Bytes
  | 0, _ => []
  | n + 1, it => (it.postInc).1.deref :: splitter.derefs n (it.postInc).2

/-- A record with stale values, used to instantiate the statements. -/
def sampleRecord : record :=
  { fields := [{ name := cstr "id", value := cstr "old" },
               { name := cstr "title", value := cstr "stale" },
               { name := cstr "genre", value := cstr "x" }] }

/-- The span `7`, delimiter, `Up`. -/
def sampleSpan : Bytes := cstr "7" ++ movie_delimiter ++ cstr "Up"

/-- The fields of a range that `copy_if` lets through: those whose value is
not empty. -/
def emitted (fs : List field) : List field := fs.filter (fun f => !f.is_empty)

/-- The pieces without the last one when that one is empty. -/
def dropTrailingEmpty : List Bytes → List Bytes
  | [] => []
  | [x] => if x = [] then [] else [x]
  | x :: y :: rest => x :: dropTrailingEmpty (y :: rest)

/-- The sub-records of a field: its pieces on the delimiter, an empty last
piece left out. -/
def subrecords (d s : Bytes) : List Bytes := dropTrailingEmpty (pieces d s)

/-- Removal of a leading text: `none` when the text does not start with it. -/
def stripLeading (p s : Bytes) : Option Bytes :=
  if p.isPrefixOf s then some (s.drop p.length) else none

/-- Removal of `clause` where it stands just before the final `tail`: `none`
when the text does not end with `clause` followed by `tail`. -/
def stripClause (clause tail s : Bytes) : Option Bytes :=
  if (clause ++ tail).isSuffixOf s then
    some (s.take (s.length - (clause ++ tail).length) ++ tail)
  else none

/-- A view over a record whose second field is empty. -/
def sampleView : record_view :=
  record_view.ofRecord
    { fields := [{ name := cstr "id", value := cstr "7" },
                 { name := cstr "poster_path", value := [] },
                 { name := cstr "title", value := cstr "Up" }] } 0

/-- The buffer and the extraction of `genres` over the sub-records of `f`. -/
def genresText (f : field) : Bytes :=
  quotedIn SQUOTE SQUOTE
    (genresBody (subrecords record_delimiter f.value) (record.ofNames raw_genre_fields)
      { delimiter := some (cstr ","), count := 0 } [])

/-- The movie record after the line has been parsed and the genre field
replaced (split.cpp lines 450-454). -/
def movieOf (db : DB) (movie : record) (line : Bytes) : record :=
  ((movie.parse line movie_delimiter).1).setValue (-3)
    (db.list (genresText (((movie.parse line movie_delimiter).1).get (-3))))

/-- The `insert` calls of one line, the sub-records being given by `subrecords`. -/
def callsOf (db : DB) (movie : record) (line : Bytes) : List (Bytes × record_view) :=
  (cstr "movies", { view := movieOf db movie line, begin := 0, end_ := -2 })
    :: (directorCalls (movieOf db movie line)
          (subrecords record_delimiter ((movieOf db movie line).get (-2)).value)
          (record.ofNames raw_director_fields)
        ++ actorCalls (movieOf db movie line)
          (subrecords record_delimiter ((movieOf db movie line).get (-1)).value)
          (record.ofNames raw_actor_fields))

/-- The fields of the movie record once `line` has been parsed: the schema
names with the pieces of the line, the empty text where there is no piece. -/
def movieFields (line : Bytes) : List field :=
  List.zipWith field.mk raw_movie_fields
    ((List.range 15).map (fun i => (pieces movie_delimiter line).getD i []))

/-- The statement text of a dialect for a table and the fields of a view. -/
def insertText (db : DB) (table : Bytes) (fs : List field) : Bytes :=
  match db with
  | .MySQL =>
    cstr "INSERT IGNORE " ++ table ++ cstr "("
      ++ joinWith (cstr ", ") ((emitted fs).map field.name) ++ cstr ") VALUES ("
      ++ joinWith (cstr ", ") ((emitted fs).map field.value) ++ cstr ");\n"
  | .PostgreSQL =>
    cstr "INSERT INTO " ++ table ++ cstr "("
      ++ joinWith (cstr ", ") ((emitted fs).map field.name) ++ cstr ") VALUES ("
      ++ joinWith (cstr ", ") ((emitted fs).map field.value)
      ++ cstr ") ON CONFLICT DO NOTHING;\n"

/-- The fields an `insert` call ranges over (none for an ill-formed view). -/
def callFields (c : Bytes × record_view) : List field := (c.2.elems).getD []

/-- The column names an `insert` call writes. -/
def columnsOf (c : Bytes × record_view) : List Bytes := (emitted (callFields c)).map field.name

/-- The name (second field) of each sub-record enumerated from a genre field,
in input order. -/
def genreNames (f : field) : List Bytes :=
  (subrecords record_delimiter f.value).map (fun v =>
    ((((record.ofNames raw_genre_fields).parse v value_delimiter).1).get 1).value)

/-- A genre field with two sub-records, `28`, `Sci Fi` and `878` with an empty
name. -/
def sampleGenre : field :=
  { name := cstr "genre",
    value := cstr "28" ++ value_delimiter ++ cstr "Sci Fi" ++ record_delimiter
      ++ cstr "878" ++ value_delimiter }

/-- The thirteen fields the `movies` statement ranges over: the first twelve
fields of the parsed line and the genre field holding `g`. -/
def movieRow (line g : Bytes) : List field :=
  (movieFields line).take 12 ++ [{ name := cstr "genre", value := g }]

/-- The genre list of a line as the dialect formats it. -/
def genreOf (db : DB) (line : Bytes) : Bytes :=
  db.list (genresText { name := cstr "genre", value := (pieces movie_delimiter line).getD 12 [] })

/-- A line with an id, a title, a genre list of two sub-records, one
director and one actor. -/
def sampleLine : Bytes :=
  joinWith movie_delimiter
    [cstr "7", cstr "Up", [], [], [], [], [], [], [], [], [], [],
     cstr "1" ++ value_delimiter ++ cstr "Action" ++ record_delimiter
       ++ cstr "2" ++ value_delimiter ++ cstr "Sci-Fi",
     cstr "5" ++ value_delimiter ++ cstr "Pete",
     cstr "9" ++ value_delimiter ++ cstr "Ed" ++ value_delimiter ++ cstr "Carl"]

/-- The splitter after `n` applications of `operator++`. -/
def splitter.advance : Nat → splitter → splitter
  | 0, it => it
  | n + 1, it => splitter.advance n it.next

/-- A delimiter that cannot overlap an occurrence of itself: when it stands at
the start of a text in which it also stands after the non-empty `t`, then `t`
is at least as long as the delimiter. -/
def noOverlap (d : Bytes) : Prop :=
  ∀ t l : Bytes, t ≠ [] → d.isPrefixOf (t ++ (d ++ l)) = true → d.length ≤ t.length

/-- The algorithm `std::copy(first, last, result)` into an `ostream_iterator`
on the stream `os`: `*result = *first; ++result;` for each item. -/
def ostream_iterator.copy {α : Type} (write : α → Bytes) :
    List α → ostream_iterator → Bytes → Bytes
  | [], _, os => os
  | x :: xs, it, os => ostream_iterator.copy write xs it.inc (it.assign write x os)

/-- The statements `*out++ = x` for each item `x` in turn. -/
def ostream_iterator.putAll {α : Type} (write : α → Bytes) :
    List α → ostream_iterator → Bytes → Bytes
  | [], _, os => os
  | x :: xs, it, os =>
    ostream_iterator.putAll write xs (it.postInc).2 ((it.postInc).1.assign write x os)

/-! ## The plain-C reference (csplit.c lines 170-185) -/

/-- The loop `while (length--)` of `sql_quote` over the bytes found at `str`:
a quote is written twice, any other byte once; `none` when the loop reads
past the bytes at `str`. -/
def sqlQuoteLoop : Nat → Bytes → Option Bytes
  | 0, _ => some []
  | _ + 1, [] => none
  | n + 1, c :: t =>
    (sqlQuoteLoop n t).map (fun o => (if c = SQUOTE then [c, c] else [c]) ++ o)

/-- The function `sql_quote(str, length)`: the text printed; `str` is `none`
for a null pointer, else the bytes it points to. -/
def sql_quote (str : Option Bytes) (length : Nat) : Option Bytes :=
  if length = 0 then some (cstr "NULL")
  else
    match str with
    | none => some []
    | some mem => (sqlQuoteLoop length mem).map (fun o => [SQUOTE] ++ o ++ [SQUOTE])

/-- The span `a`, record delimiter. -/
def sampleTrailing : Bytes := cstr "a" ++ record_delimiter

/-- The line of the end-to-end scenario: id `1`, title `Inception`, a genre
field of two sub-records named `Action` and `Sci-Fi`, the other fields empty. -/
def scenarioLine : Bytes :=
  joinWith movie_delimiter
    [cstr "1", cstr "Inception", [], [], [], [], [], [], [], [], [], [],
     cstr "genre_id" ++ value_delimiter ++ cstr "Action" ++ record_delimiter
       ++ cstr "genre_id" ++ value_delimiter ++ cstr "Sci-Fi",
     [], []]

/-- The genre field of the end-to-end scenario: two sub-records whose names
are `Action` and `Sci-Fi`. -/
def scenarioGenre : Bytes :=
  cstr "genre_id" ++ value_delimiter ++ cstr "Action" ++ record_delimiter
    ++ cstr "genre_id" ++ value_delimiter ++ cstr "Sci-Fi"

/-! ## The plain-C reference: records (csplit.c lines 47-168, 241-271)

The line buffer is the list of its bytes before the terminating NUL; a pointer
into it is an offset, the null pointer is `none`. -/

/-- Field value: a pair of (start, length) markers. -/
structure marker_type where
  begin : Option Nat
  length : Nat
deriving DecidableEq, Repr

/-- Field definition of the C reference: a name and a marker. -/
structure cfield where
  name : Bytes
  marker : marker_type
deriving DecidableEq, Repr

def fldlen (fld : cfield) : Nat := fld.marker.length

/-- The bytes a call `strncat(dest, fldbegin(fld), fldlen(fld))` appends: at
most `length` bytes from the start marker, up to the NUL that ends the buffer;
nothing for a null start. -/
def fldtext (buf : Bytes) (fld : cfield) : Bytes :=
  match fld.marker.begin with
  | none => []
  | some b => (buf.drop b).take fld.marker.length

/-- A field of the C reference as first initialised: null start, length 0. -/
def cfield.blank (name : String) : cfield :=
  { name := cstr name, marker := { begin := none, length := 0 } }

def raw_movie : List cfield :=
  ["id", "title", "original_title", "release_date", "status",
   "vote_average", "vote_count", "runtime", "certification",
   "poster_path", "budget", "tag_line", "genre", "directors", "cast"].map cfield.blank

def raw_genre : List cfield := ["genre_id", "genre_name"].map cfield.blank

/-- Field identifiers. -/
def GENRE : Nat := 12

def GENRE_NAME : Nat := 1

/-- The statements `stop = strstr(line, delim); if (!stop || stop > end) stop = end;`
given the result of the search. -/
def clampStop (found : Option Nat) (end_ : Nat) : Nat :=
  match found with
  | some p => if end_ < p then end_ else p
  | none => end_

/-- The difference `stop - line` stored in a `size_t`. -/
def ptrDiff (stop line : Nat) : Nat := (stop + 2 ^ 64 - line) % 2 ^ 64

/-- The `do .. while` loop of `parse_record`; the first argument is
`field_count` at the start of the iteration, `i` the index `fields` points to. -/
def parseRecordLoop (buf delim : Bytes) (end_ : Nat) :
    Nat → Nat → Nat → List cfield → List cfield
  | 0, _, _, fields => fields
  | fc + 1, line, i, fields =>
    let stop := clampStop (find buf delim line) end_
    let fields1 := fields.modify
      (fun f => { f with marker := { begin := some line, length := ptrDiff stop line } }) i
    if fc = 0 ∨ end_ < stop then fields1
    else if stop < end_ then
      parseRecordLoop buf delim end_ fc (stop + delim.length) (i + 1) fields1
    else fields1

/-- The function `parse_record(line, end, delim, fields, field_count)` for
non-null `line` and `fields`: the returned code and the fields after the call. -/
def parse_record (buf : Bytes) (line end_ : Nat) (delim : Bytes) (fields : List cfield)
    (field_count : Nat) : Int × List cfield :=
  if field_count = 0 then (-1, fields)
  else (0, parseRecordLoop buf delim end_ field_count line 0 fields)

/-- The function `fetch_record(begin, end, record, field_count)`: the returned
pointer and the record after the call. -/
def fetch_record (buf : Bytes) (begin end_ : Nat) (record : List cfield)
    (field_count : Nat) : Nat × List cfield :=
  let stop := clampStop (find buf DOUBLE_VLINE begin) end_
  (stop + DOT_LEADER.length, (parse_record buf begin stop DOT_LEADER record field_count).2)

/-- The loop `while (current_record < record_end)` of the genre packing of
`main` (lines 257-266): the string built in `genres` and the genre record
left, the buffer being taken large enough; `none` when the loop is still
running after `fuel` iterations. -/
def packLoop (buf : Bytes) (record_end : Nat) :
    Nat → Nat → List cfield → Bytes → Option (Bytes × List cfield)
  | 0, current_record, genre, genres =>
    if current_record < record_end then none else some (genres, genre)
  | fuel + 1, current_record, genre, genres =>
    if current_record < record_end then
      let r := fetch_record buf current_record record_end genre 2
      let g1 := if genres ≠ [] then genres ++ cstr "," else genres
      let g2 := g1 ++ fldtext buf (r.2.getD GENRE_NAME (cfield.blank ""))
      packLoop buf record_end fuel r.1 r.2 g2
    else some (genres, genre)

/-- What the genre packing of `main` does for one line. -/
structure Packing where
  /-- The length of the raw genre field. -/
  fieldLength : Nat
  /-- The size of the buffer `genres` after the conditional `realloc`. -/
  capacity : Nat
  /-- The string built in the buffer, `none` when the pointer is null. -/
  built : Option Bytes
deriving DecidableEq, Repr

/-- Lines 238-266 of `main` for the line `buf` (newline included, as `getline`
returns it), with `current_size` bytes allocated so far for `genres` (the
pointer is null exactly when that size is 0). -/
def genrePacking (buf : Bytes) (current_size : Nat) (movie genre : List cfield) :
    Option Packing :=
  let movie1 := (parse_record buf 0 (buf.length - 1) TRIANGLE_BULLET movie movie.length).2
  let g := movie1.getD GENRE (cfield.blank "")
  let capacity := if current_size < fldlen g then fldlen g else current_size
  if capacity = 0 then some { fieldLength := fldlen g, capacity := 0, built := none }
  else
    let record_begin := (g.marker.begin).getD 0
    let record_end := record_begin + fldlen g
    (packLoop buf record_end (fldlen g) record_begin genre []).map (fun r =>
      { fieldLength := fldlen g, capacity := capacity, built := some r.1 })

/-- A line whose genre field has three sub-records, the last two without a
value delimiter. -/
def overflowLine : Bytes :=
  joinWith movie_delimiter
    [cstr "7", cstr "Up", [], [], [], [], [], [], [], [], [], [],
     cstr "1" ++ value_delimiter ++ cstr "Action" ++ record_delimiter ++ cstr "X"
       ++ record_delimiter ++ cstr "Y",
     [], []] ++ cstr "\n"

/-- The last line of an input that does not end with a newline: `7` and the
movie delimiter. -/
def straddleLine : Bytes := cstr "7" ++ movie_delimiter

/-- No occurrence of `d` that starts inside the text `T` runs past its end
into the text `rest` that follows it. -/
def noStraddle (d T rest : Bytes) : Prop :=
  ∀ u v : Bytes, T = u ++ v → v ≠ [] → d.isPrefixOf (v ++ rest) = true → d.length ≤ v.length

/-- The marker written by one iteration of `parse_record`. -/
def setMarker (line stop : Nat) (f : cfield) : cfield :=
  { f with marker := { begin := some line, length := ptrDiff stop line } }

/-- The name of a C field and the text its marker designates in the buffer. -/
def cview (buf : Bytes) (f : cfield) : Bytes × Bytes := (f.name, fldtext buf f)

/-- The two rows the driver derives from the director sub-record `v` of the
movie `id`: the person (id, full name) and the relation (movie, director),
the texts being the pieces of `v` on the value delimiter. -/
def directorRows (id v : Bytes) : List (Bytes × List field) :=
  [(cstr "people",
      [{ name := cstr "id", value := (pieces value_delimiter v).getD 0 [] },
       { name := cstr "full_name", value := (pieces value_delimiter v).getD 1 [] }]),
   (cstr "directors",
      [{ name := cstr "movie_id", value := id },
       { name := cstr "director_id", value := (pieces value_delimiter v).getD 0 [] }])]

/-- The two rows the driver derives from the cast sub-record `v` of the movie
`id`: the person (id, full name) and the relation (movie, actor, character). -/
def actorRows (id v : Bytes) : List (Bytes × List field) :=
  [(cstr "people",
      [{ name := cstr "id", value := (pieces value_delimiter v).getD 0 [] },
       { name := cstr "full_name", value := (pieces value_delimiter v).getD 1 [] }]),
   (cstr "characters",
      [{ name := cstr "movie_id", value := id },
       { name := cstr "actor_id", value := (pieces value_delimiter v).getD 0 [] },
       { name := cstr "character_name", value := (pieces value_delimiter v).getD 2 [] }])]

/-- The rows of one line, each a table name and the fields its statement ranges
over: the movie row, then the rows of each sub-record of the directors field
(piece 13 of the line), then those of each sub-record of the cast field (piece
14), in input order. -/
def lineRows (db : DB) (line : Bytes) : List (Bytes × List field) :=
  (cstr "movies", movieRow line (genreOf db line))
    :: (((subrecords record_delimiter ((pieces movie_delimiter line).getD 13 [])).map
          (directorRows ((pieces movie_delimiter line).getD 0 []))).flatten
      ++ ((subrecords record_delimiter ((pieces movie_delimiter line).getD 14 [])).map
          (actorRows ((pieces movie_delimiter line).getD 0 []))).flatten)


-- End of the definitions.

/-! # Theorems -/

/-! ## Properties of the search -/

theorem isPrefixOf_nil_false {d : Bytes} (hd : d ≠ []) : d.isPrefixOf [] = false := by
  cases d with
  | nil => exact absurd rfl hd
  | cons a t => rfl

theorem cutFirst_spec (d : Bytes) :
    ∀ (t a b : Bytes), cutFirst d t = some (a, b) → t = a ++ d ++ b := by
  intro t
  induction t with
  | nil =>
    intro a b h
    unfold cutFirst at h
    split at h
    · rename_i hp
      have hd : d = [] := by
        cases d with
        | nil => rfl
        | cons x xs => simp [List.isPrefixOf] at hp
      simp at h
      obtain ⟨rfl, rfl⟩ := h
      simp [hd]
    · simp at h
  | cons c t ih =>
    intro a b h
    unfold cutFirst at h
    split at h
    · rename_i hp
      simp at h
      obtain ⟨rfl, rfl⟩ := h
      rw [List.isPrefixOf_iff_prefix] at hp
      obtain ⟨u, hu⟩ := hp
      rw [← hu]
      simp
    · cases hc : cutFirst d t with
      | none => simp [hc] at h
      | some p =>
        obtain ⟨a1, b1⟩ := p
        simp [hc] at h
        obtain ⟨rfl, rfl⟩ := h
        have := ih a1 b1 hc
        simp [this]

theorem findAt_eq_cutFirst (d : Bytes) : ∀ (t : Bytes) (i : Nat),
    findAt d t i = (cutFirst d t).map (fun p => i + p.1.length) := by
  intro t
  induction t with
  | nil =>
    intro i
    unfold findAt cutFirst
    split <;> simp
  | cons c t ih =>
    intro i
    unfold findAt cutFirst
    split
    · simp
    · rw [ih]
      cases cutFirst d t with
      | none => simp
      | some p => simp; omega

/-! ## The splitter enumerates the pieces -/

theorem splitter_init_eq (s d : Bytes) : splitter.init s d = splitter.atPos s d 0 := rfl

theorem find_append (pre r d : Bytes) :
    find (pre ++ r) d pre.length = (cutFirst d r).map (fun p => pre.length + p.1.length) := by
  unfold find
  simp [findAt_eq_cutFirst]

theorem atPos_terminal_next (s d : Bytes) :
    (splitter.atPos s d s.length).next = splitter.atPos s d s.length := by
  simp [splitter.next, splitter.atPos]

theorem atPos_terminal_deref (s d : Bytes) : (splitter.atPos s d s.length).deref = [] := by
  simp [splitter.deref, splitter.atPos]

theorem derefs_terminal (s d : Bytes) (n : Nat) :
    splitter.derefs n (splitter.atPos s d s.length) = List.replicate n [] := by
  induction n with
  | zero => rfl
  | succ n ih =>
    simp only [splitter.derefs, splitter.postInc, atPos_terminal_next, atPos_terminal_deref, ih]
    rfl

theorem atPos_deref_none (pre r d : Bytes) (h : cutFirst d r = none) :
    (splitter.atPos (pre ++ r) d pre.length).deref = r := by
  simp [splitter.deref, splitter.atPos, find_append, h, minFind]

theorem atPos_next_none (pre r d : Bytes) (h : cutFirst d r = none) :
    (splitter.atPos (pre ++ r) d pre.length).next
      = splitter.atPos (pre ++ r) d (pre ++ r).length := by
  by_cases hr : r = []
  · subst hr
    simp [splitter.next, splitter.atPos]
  · have hlen : 0 < r.length := List.length_pos.mpr hr
    simp [splitter.next, splitter.atPos, find_append, h, minFind, hlen]

theorem atPos_end_some (pre r d a b : Bytes) (h : cutFirst d r = some (a, b)) :
    (splitter.atPos (pre ++ r) d pre.length).end_ = pre.length + a.length := by
  have hr := cutFirst_spec d r a b h
  have hl : r.length = a.length + d.length + b.length := by rw [hr]; simp; omega
  simp only [splitter.atPos, find_append, h, minFind, Option.map_some', List.length_append]
  omega

theorem atPos_deref_some (pre r d a b : Bytes) (h : cutFirst d r = some (a, b)) :
    (splitter.atPos (pre ++ r) d pre.length).deref = a := by
  have hr := cutFirst_spec d r a b h
  have he := atPos_end_some pre r d a b h
  unfold splitter.deref
  rw [he]
  simp only [splitter.atPos, List.drop_left, Nat.add_sub_cancel_left]
  rw [hr, List.append_assoc, List.take_left]

theorem atPos_next_some (pre r d a b : Bytes) (hd : d ≠ []) (h : cutFirst d r = some (a, b)) :
    (splitter.atPos (pre ++ r) d pre.length).next
      = splitter.atPos (pre ++ r) d (pre ++ a ++ d).length := by
  have hr := cutFirst_spec d r a b h
  have hl : r.length = a.length + d.length + b.length := by rw [hr]; simp; omega
  have he := atPos_end_some pre r d a b h
  have hlen : 0 < d.length := List.length_pos.mpr hd
  unfold splitter.next
  rw [he]
  have hb : (splitter.atPos (pre ++ r) d pre.length).begin = pre.length := rfl
  have hrec : (splitter.atPos (pre ++ r) d pre.length).record = pre ++ r := rfl
  have hm : (splitter.atPos (pre ++ r) d pre.length).mark = d := rfl
  simp only [hb, hrec, hm]
  have hlt : pre.length < (pre ++ r).length := by simp; omega
  rw [if_pos hlt]
  have e : min (pre.length + a.length + d.length) (pre ++ r).length = (pre ++ a ++ d).length := by
    simp; omega
  rw [e]
  rfl

theorem take_append_replicate {α : Type} (x : α) :
    ∀ (l : List α) (n m k : Nat), n ≤ m → n ≤ k →
      (l ++ List.replicate m x).take n = (l ++ List.replicate k x).take n := by
  intro l
  induction l with
  | nil =>
    intro n m k hm hk
    simp [List.take_replicate, Nat.min_eq_left hm, Nat.min_eq_left hk]
  | cons a l ih =>
    intro n m k hm hk
    cases n with
    | zero => simp
    | succ n =>
      simp only [List.cons_append, List.take_succ_cons]
      rw [ih n m k (by omega) (by omega)]

theorem derefs_atPos (d : Bytes) (hd : d ≠ []) :
    ∀ (fuel n : Nat) (pre r : Bytes), r.length ≤ fuel →
      splitter.derefs n (splitter.atPos (pre ++ r) d pre.length)
        = (piecesFuel d fuel r ++ List.replicate n []).take n := by
  intro fuel
  induction fuel with
  | zero =>
    intro n pre r hr
    have : r = [] := List.length_eq_zero.mp (Nat.le_zero.mp hr)
    subst this
    have := derefs_terminal pre d n
    simp only [List.append_nil]
    rw [this]
    have e := take_append_replicate ([] : Bytes) [] n (n + 1) n (by omega) (by omega)
    simp only [List.nil_append] at e
    simp only [piecesFuel, List.singleton_append]
    rw [← List.replicate_succ, e]
    simp [List.take_replicate]
  | succ fuel ih =>
    intro n pre r hr
    cases n with
    | zero => simp [splitter.derefs]
    | succ n =>
      simp only [splitter.derefs, splitter.postInc, piecesFuel]
      cases hc : cutFirst d r with
      | none =>
        rw [atPos_deref_none pre r d hc, atPos_next_none pre r d hc, derefs_terminal]
        simp [List.take_replicate]
      | some p =>
        obtain ⟨a, b⟩ := p
        have hspec := cutFirst_spec d r a b hc
        have hl : r.length = a.length + d.length + b.length := by rw [hspec]; simp; omega
        have hlen : 0 < d.length := List.length_pos.mpr hd
        rw [atPos_deref_some pre r d a b hc, atPos_next_some pre r d a b hd hc]
        have e : pre ++ r = (pre ++ a ++ d) ++ b := by rw [hspec]; simp
        rw [e, ih n (pre ++ a ++ d) b (by omega)]
        simp only [List.cons_append, List.take_succ_cons]
        rw [take_append_replicate [] _ n n (n + 1) (by omega) (by omega)]

theorem derefs_init (d : Bytes) (hd : d ≠ []) (n : Nat) (s : Bytes) :
    splitter.derefs n (splitter.init s d) = (pieces d s ++ List.replicate n []).take n := by
  have := derefs_atPos d hd s.length n [] s (Nat.le_refl _)
  simpa [splitter_init_eq, pieces] using this

theorem parseFields_names : ∀ (fs : List field) (it : splitter),
    (parseFields fs it).map field.name = fs.map field.name := by
  intro fs
  induction fs with
  | nil => intro it; rfl
  | cons f fs ih => intro it; simp [parseFields, ih]

theorem parseFields_values : ∀ (fs : List field) (it : splitter),
    (parseFields fs it).map field.value = splitter.derefs fs.length it := by
  intro fs
  induction fs with
  | nil => intro it; rfl
  | cons f fs ih => intro it; simp [parseFields, splitter.derefs, ih]

theorem parse_values (r : record) (span d : Bytes) (hd : d ≠ []) :
    (r.parse span d).1.fields.map field.value
      = (pieces d span ++ List.replicate r.size []).take r.size := by
  simp only [record.parse, parseFields_values, record.size]
  exact derefs_init d hd _ span

/-! ## Joining the pieces, counting the occurrences -/

theorem piecesFuel_ne_nil (d : Bytes) (fuel : Nat) (r : Bytes) : piecesFuel d fuel r ≠ [] := by
  cases fuel with
  | zero => simp [piecesFuel]
  | succ fuel =>
    simp only [piecesFuel]
    cases cutFirst d r with
    | none => simp
    | some p => simp

theorem joinWith_cons (d a : Bytes) (l : List Bytes) (hl : l ≠ []) :
    joinWith d (a :: l) = a ++ d ++ joinWith d l := by
  cases l with
  | nil => exact absurd rfl hl
  | cons y rest => rfl

theorem joinWith_piecesFuel (d : Bytes) : ∀ (fuel : Nat) (r : Bytes),
    joinWith d (piecesFuel d fuel r) = r := by
  intro fuel
  induction fuel with
  | zero => intro r; rfl
  | succ fuel ih =>
    intro r
    simp only [piecesFuel]
    cases hc : cutFirst d r with
    | none => rfl
    | some p =>
      obtain ⟨a, b⟩ := p
      simp only
      rw [joinWith_cons d a _ (piecesFuel_ne_nil d fuel b), ih b]
      exact (cutFirst_spec d r a b hc).symm

theorem occurrences_cutFirst_none (d : Bytes) : ∀ (r : Bytes),
    cutFirst d r = none → occurrences d r = 0 := by
  intro r
  induction r with
  | nil =>
    intro h
    unfold cutFirst at h
    unfold occurrences
    split at h
    · simp at h
    · rename_i hp; simp [hp]
  | cons c t ih =>
    intro h
    unfold cutFirst at h
    unfold occurrences
    split at h
    · simp at h
    · rename_i hp
      simp only [hp, Bool.false_eq_true, if_false, Nat.zero_add]
      apply ih
      cases hc : cutFirst d t with
      | none => rfl
      | some p => simp [hc] at h

theorem occurrences_cutFirst_some (d : Bytes) (hd : d ≠ [])
    (hov : ∀ b, occurrences d (d ++ b) = 1 + occurrences d b) : ∀ (r a b : Bytes),
    cutFirst d r = some (a, b) → occurrences d r = 1 + occurrences d b := by
  intro r
  induction r with
  | nil =>
    intro a b h
    unfold cutFirst at h
    rw [isPrefixOf_nil_false hd] at h
    simp at h
  | cons c t ih =>
    intro a b h
    unfold cutFirst at h
    split at h
    · rename_i hp
      simp only [Option.some.injEq, Prod.mk.injEq] at h
      obtain ⟨_, hb⟩ := h
      rw [List.isPrefixOf_iff_prefix] at hp
      obtain ⟨u, hu⟩ := hp
      rw [← hu] at hb ⊢
      rw [List.drop_left] at hb
      rw [← hb]
      exact hov u
    · rename_i hp
      cases hc : cutFirst d t with
      | none => simp [hc] at h
      | some p =>
        obtain ⟨a1, b1⟩ := p
        simp only [hc, Option.map_some', Option.some.injEq, Prod.mk.injEq] at h
        obtain ⟨_, hb⟩ := h
        subst hb
        have e : occurrences d (c :: t) = occurrences d t := by
          simp only [occurrences, hp, Bool.false_eq_true, if_false, Nat.zero_add]
        rw [e]
        exact ih a1 b1 hc

theorem piecesFuel_length (d : Bytes) (hd : d ≠ [])
    (hov : ∀ b, occurrences d (d ++ b) = 1 + occurrences d b) : ∀ (fuel : Nat) (r : Bytes),
    r.length ≤ fuel → (piecesFuel d fuel r).length = occurrences d r + 1 := by
  intro fuel
  induction fuel with
  | zero =>
    intro r hr
    have : r = [] := List.length_eq_zero.mp (Nat.le_zero.mp hr)
    subst this
    simp [piecesFuel, occurrences, isPrefixOf_nil_false hd]
  | succ fuel ih =>
    intro r hr
    simp only [piecesFuel]
    cases hc : cutFirst d r with
    | none => simp [occurrences_cutFirst_none d r hc]
    | some p =>
      obtain ⟨a, b⟩ := p
      have hspec := cutFirst_spec d r a b hc
      have hl : r.length = a.length + d.length + b.length := by rw [hspec]; simp; omega
      have hlen : 0 < d.length := List.length_pos.mpr hd
      simp only [List.length_cons]
      rw [ih b (by omega), occurrences_cutFirst_some d hd hov r a b hc]
      omega

theorem movie_delimiter_ne_nil : movie_delimiter ≠ [] := by decide

theorem movie_delimiter_no_overlap (b : Bytes) :
    occurrences movie_delimiter (movie_delimiter ++ b) = 1 + occurrences movie_delimiter b := by
  have e : movie_delimiter = [226, 128, 163] := by decide
  rw [e]
  simp [occurrences, List.isPrefixOf]

theorem pieces_movie_length (line : Bytes) :
    (pieces movie_delimiter line).length = occurrences movie_delimiter line + 1 :=
  piecesFuel_length movie_delimiter movie_delimiter_ne_nil movie_delimiter_no_overlap
    line.length line (Nat.le_refl _)

/-! ## The output iterator joins with the separator -/

theorem copy_if_count_pos (write : field → Bytes) (pred : field → Bool) (sep : Bytes) :
    ∀ (fs : List field) (k : Nat) (os : Bytes),
      copy_if write pred fs { delimiter := some sep, count := k + 1 } os
        = os ++ ((fs.filter pred).map (fun f => sep ++ write f)).flatten := by
  intro fs
  induction fs with
  | nil => intro k os; simp [copy_if]
  | cons f fs ih =>
    intro k os
    unfold copy_if
    by_cases hp : pred f = true
    · simp only [hp, if_true, ostream_iterator.inc, ostream_iterator.assign]
      rw [ih]
      simp [List.filter_cons, hp]
    · simp only [hp, Bool.false_eq_true, if_false]
      rw [ih]
      simp [List.filter_cons, hp]

theorem joinWith_cons_flatten (sep x : Bytes) (l : List Bytes) :
    joinWith sep (x :: l) = x ++ (l.map (fun y => sep ++ y)).flatten := by
  induction l generalizing x with
  | nil => simp [joinWith]
  | cons y rest ih =>
    rw [joinWith_cons sep x (y :: rest) (by simp), ih y]
    simp

theorem copy_if_join (write : field → Bytes) (pred : field → Bool) (sep : Bytes) :
    ∀ (fs : List field),
      copy_if write pred fs { delimiter := some sep, count := 0 } []
        = joinWith sep ((fs.filter pred).map write) := by
  intro fs
  induction fs with
  | nil => rfl
  | cons f fs ih =>
    unfold copy_if
    by_cases hp : pred f = true
    · simp only [hp, if_true, ostream_iterator.inc, ostream_iterator.assign]
      rw [copy_if_count_pos]
      simp only [List.filter_cons, hp, if_true, List.map_cons]
      rw [joinWith_cons_flatten]
      simp [List.map_map, Function.comp_def]
    · simp only [hp, Bool.false_eq_true, if_false]
      rw [ih]
      simp [List.filter_cons, hp]

theorem writeNames_eq (rg : range) (fs : List field) (h : rg.elems = some fs) :
    writeNames rg = some (joinWith (cstr ", ") ((emitted fs).map field.name)) := by
  simp only [writeNames, h, Option.map_some', copy_if_join, emitted]

theorem writeValues_eq (rg : range) (fs : List field) (h : rg.elems = some fs) :
    writeValues rg = some (joinWith (cstr ", ") ((emitted fs).map field.value)) := by
  simp only [writeValues, h, Option.map_some', copy_if_join, emitted]

theorem MySQL_insert_eq (table : Bytes) (v : record_view) (fs : List field)
    (h : v.elems = some fs) :
    MySQL.insert table v = some (cstr "INSERT IGNORE " ++ table ++ cstr "("
      ++ joinWith (cstr ", ") ((emitted fs).map field.name) ++ cstr ")" ++ cstr " VALUES ("
      ++ joinWith (cstr ", ") ((emitted fs).map field.value) ++ cstr ")"
      ++ DB.endl) := by
  have hn : v.names.elems = some fs := h
  have hv : v.values.elems = some fs := h
  simp only [MySQL.insert, writeNames_eq _ fs hn, writeValues_eq _ fs hv]

theorem PostgreSQL_insert_eq (table : Bytes) (v : record_view) (fs : List field)
    (h : v.elems = some fs) :
    PostgreSQL.insert table v = some (cstr "INSERT INTO " ++ table ++ cstr "("
      ++ joinWith (cstr ", ") ((emitted fs).map field.name) ++ cstr ")" ++ cstr " VALUES ("
      ++ joinWith (cstr ", ") ((emitted fs).map field.value)
      ++ cstr ") ON CONFLICT DO NOTHING" ++ DB.endl) := by
  have hn : v.names.elems = some fs := h
  have hv : v.values.elems = some fs := h
  simp only [PostgreSQL.insert, writeNames_eq _ fs hn, writeValues_eq _ fs hv]

theorem quotedBody_eq (v : Bytes) :
    quotedBody SQUOTE SQUOTE v
      = (v.map (fun c => if c = SQUOTE then [SQUOTE, SQUOTE] else [c])).flatten := by
  induction v with
  | nil => rfl
  | cons c t ih =>
    unfold quotedBody
    by_cases hc : c = SQUOTE
    · simp [hc, ih]
    · simp [hc, ih]

theorem stripLeading_append (p x : Bytes) : stripLeading p (p ++ x) = some x := by
  have : p.isPrefixOf (p ++ x) = true := by
    rw [List.isPrefixOf_iff_prefix]
    exact List.prefix_append p x
  simp [stripLeading, this]

theorem stripClause_append (c t x : Bytes) : stripClause c t (x ++ (c ++ t)) = some (x ++ t) := by
  have : (c ++ t).isSuffixOf (x ++ (c ++ t)) = true := by
    rw [List.isSuffixOf_iff_suffix]
    exact List.suffix_append x (c ++ t)
  simp [stripClause, this]

theorem quote_ne_NULL (v : Bytes) : quote v ≠ cstr "NULL" := by
  intro h
  have h0 := congrArg List.head? h
  simp [quote, quotedOut, SQUOTE, cstr] at h0

theorem zip_map_same {α β γ : Type} (f : α → β) (g : α → γ) (l : List α) :
    List.zip (l.map f) (l.map g) = l.map (fun x => (f x, g x)) := by
  induction l with
  | nil => rfl
  | cons a l ih => simp [ih]

theorem mem_emitted (fs : List field) (f : field) :
    f ∈ emitted fs ↔ f ∈ fs ∧ f.value ≠ [] := by
  simp [emitted, field.is_empty, List.mem_filter]

/-! ## The enumeration loops terminate -/

theorem loop_terminal (s d : Bytes) (fuel : Nat) :
    splitter.loop fuel (splitter.atPos s d s.length) = some [] := by
  cases fuel with
  | zero => simp [splitter.loop, splitter.atPos]
  | succ fuel => simp [splitter.loop, splitter.atPos]

theorem dropTrailingEmpty_cons (a : Bytes) (l : List Bytes) (hl : l ≠ []) :
    dropTrailingEmpty (a :: l) = a :: dropTrailingEmpty l := by
  cases l with
  | nil => exact absurd rfl hl
  | cons y rest => rfl

theorem loop_atPos (d : Bytes) (hd : d ≠ []) :
    ∀ (fuel : Nat) (pre r : Bytes), r.length ≤ fuel →
      splitter.loop fuel (splitter.atPos (pre ++ r) d pre.length)
        = some (dropTrailingEmpty (piecesFuel d fuel r)) := by
  intro fuel
  induction fuel with
  | zero =>
    intro pre r hr
    have : r = [] := List.length_eq_zero.mp (Nat.le_zero.mp hr)
    subst this
    simp [splitter.loop, splitter.atPos, piecesFuel, dropTrailingEmpty]
  | succ fuel ih =>
    intro pre r hr
    by_cases hr0 : r = []
    · subst hr0
      have hc : cutFirst d [] = none := by simp [cutFirst, isPrefixOf_nil_false hd]
      simp [splitter.loop, splitter.atPos, piecesFuel, dropTrailingEmpty, hc]
    · have hpos : 0 < r.length := List.length_pos.mpr hr0
      have hlt : (splitter.atPos (pre ++ r) d pre.length).begin
          < (splitter.atPos (pre ++ r) d pre.length).record.length := by
        simp [splitter.atPos]; omega
      simp only [splitter.loop, if_pos hlt, splitter.postInc, piecesFuel]
      cases hc : cutFirst d r with
      | none =>
        rw [atPos_deref_none pre r d hc, atPos_next_none pre r d hc, loop_terminal]
        simp [dropTrailingEmpty, hr0]
      | some p =>
        obtain ⟨a, b⟩ := p
        have hspec := cutFirst_spec d r a b hc
        have hl : r.length = a.length + d.length + b.length := by rw [hspec]; simp; omega
        have hlen : 0 < d.length := List.length_pos.mpr hd
        rw [atPos_deref_some pre r d a b hc, atPos_next_some pre r d a b hd hc]
        have e : pre ++ r = (pre ++ a ++ d) ++ b := by rw [hspec]; simp
        rw [e, ih (pre ++ a ++ d) b (by omega)]
        simp only [Option.map_some']
        rw [dropTrailingEmpty_cons a _ (piecesFuel_ne_nil d fuel b)]

theorem loop_init (d : Bytes) (hd : d ≠ []) (s : Bytes) :
    splitter.loop s.length (splitter.init s d) = some (subrecords d s) := by
  have := loop_atPos d hd s.length [] s (Nat.le_refl _)
  simpa [splitter_init_eq, subrecords, pieces] using this

theorem record_delimiter_ne_nil : record_delimiter ≠ [] := by decide

theorem value_delimiter_ne_nil : value_delimiter ≠ [] := by decide

theorem genres_eq (f : field) : genres f = some (genresText f) := by
  simp only [genres, loop_init record_delimiter record_delimiter_ne_nil, Option.map_some',
    genresText]

/-! ## The movie record of a line -/

theorem take_append_replicate_eq {α : Type} (x : α) (l : List α) (n : Nat) :
    (l ++ List.replicate n x).take n = (List.range n).map (fun i => l.getD i x) := by
  apply List.ext_getElem?
  intro i
  by_cases hi : i < n
  · rw [List.getElem?_take_of_lt hi, List.getElem?_map, List.getElem?_range hi]
    simp only [Option.map_some']
    by_cases hl : i < l.length
    · rw [List.getElem?_append_left hl]
      simp [List.getD_eq_getElem?_getD, List.getElem?_eq_getElem hl]
    · have hl2 : l.length ≤ i := Nat.le_of_not_lt hl
      rw [List.getElem?_append_right hl2, List.getElem?_replicate]
      have : i - l.length < n := by omega
      simp [this, List.getD_eq_getElem?_getD, List.getElem?_eq_none hl2]
  · have hn : n ≤ i := Nat.le_of_not_lt hi
    rw [List.getElem?_eq_none (by simp; omega), List.getElem?_eq_none (by simp; omega)]

theorem parseFields_zip : ∀ (fs : List field) (it : splitter),
    parseFields fs it = List.zipWith field.mk (fs.map field.name) (splitter.derefs fs.length it) := by
  intro fs
  induction fs with
  | nil => intro it; rfl
  | cons f fs ih => intro it; simp [parseFields, splitter.derefs, ih]

theorem parse_movie (movie : record) (line : Bytes)
    (hm : movie.fields.map field.name = raw_movie_fields) :
    (movie.parse line movie_delimiter).1 = { fields := movieFields line } := by
  have hlen : movie.fields.length = 15 := by
    have := congrArg List.length hm
    simpa [raw_movie_fields] using this
  simp only [record.parse, parseFields_zip, hm, hlen, movieFields,
    derefs_init movie_delimiter movie_delimiter_ne_nil, take_append_replicate_eq]

theorem lineCalls_eq (db : DB) (movie : record) (line : Bytes) :
    lineCalls db movie line = some (movieOf db movie line, callsOf db movie line) := by
  simp only [lineCalls, genres_eq, loop_init record_delimiter record_delimiter_ne_nil,
    movieOf, callsOf]

/-! ## Views and statements of a line -/

theorem resolve_natCast (r : record) (n : Nat) : r.resolve (n : Int) = n := by
  have : ¬ ((n : Int) < 0) := by omega
  simp [record.resolve, this]

theorem resolve_neg (r : record) (k : Nat) (hk : 0 < k) (hks : k ≤ r.size)
    (hs : r.size < 2 ^ 64) : r.resolve (-(k : Int)) = r.size - k := by
  have h1 : (-(k : Int)) < 0 := by omega
  have h2 : ((r.size : Int) + -(k : Int)) % (2 ^ 64 : Int) = ((r.size - k : Nat) : Int) := by
    have h3 : ((r.size : Int) + -(k : Int)) = ((r.size - k : Nat) : Int) := by omega
    rw [h3]
    apply Int.emod_eq_of_lt
    · omega
    · have : ((2 : Int) ^ 64) = ((2 ^ 64 : Nat) : Int) := by norm_num
      rw [this]
      omega
  simp only [record.resolve, h1, if_true, h2, Int.toNat_ofNat]

theorem ofRecord_elems (r : record) : (record_view.ofRecord r 0).elems = some r.fields := by
  have h0 : r.resolve 0 = 0 := resolve_natCast r 0
  have h1 : r.resolve (r.fields.length : Int) = r.fields.length :=
    resolve_natCast r r.fields.length
  simp [record_view.ofRecord, record_view.elems, record_view.names, record.names, range.elems,
    h0, h1, record.size]

theorem DB_insert_eq (db : DB) (table : Bytes) (v : record_view) (fs : List field)
    (h : v.elems = some fs) : db.insert table v = some (insertText db table fs) := by
  have e1 : cstr ") VALUES (" = cstr ")" ++ cstr " VALUES (" := by decide
  have e2 : cstr ");\n" = cstr ")" ++ DB.endl := by decide
  have e3 : cstr ") ON CONFLICT DO NOTHING;\n"
      = cstr ") ON CONFLICT DO NOTHING" ++ DB.endl := by decide
  cases db with
  | MySQL =>
    simp only [DB.insert, insertText, MySQL_insert_eq table v fs h, e1, e2, List.append_assoc]
  | PostgreSQL =>
    simp only [DB.insert, insertText, PostgreSQL_insert_eq table v fs h, e1, e3,
      List.append_assoc]

theorem statements_eq (db : DB) : ∀ (calls : List (Bytes × record_view)),
    (∀ c ∈ calls, ∃ fs, c.2.elems = some fs) →
    statements db calls = some (calls.map (fun c => insertText db c.1 (callFields c))) := by
  intro calls
  induction calls with
  | nil => intro _; rfl
  | cons c rest ih =>
    intro h
    obtain ⟨t, v⟩ := c
    obtain ⟨fs, hfs⟩ := h (t, v) (List.mem_cons_self _ _)
    have hrest := ih (fun c hc => h c (List.mem_cons_of_mem _ hc))
    simp only [statements, DB_insert_eq db t v fs hfs, hrest, List.map_cons, callFields, hfs,
      Option.getD_some]

theorem directorCalls_valid (movie : record) : ∀ (vs : List Bytes) (director : record),
    ∀ c ∈ directorCalls movie vs director, ∃ fs, c.2.elems = some fs := by
  intro vs
  induction vs with
  | nil => intro director c hc; simp [directorCalls] at hc
  | cons v vs ih =>
    intro director c hc
    simp only [directorCalls, List.mem_cons] at hc
    rcases hc with rfl | rfl | hc
    · exact ⟨_, ofRecord_elems _⟩
    · exact ⟨_, ofRecord_elems _⟩
    · exact ih _ c hc

theorem actorCalls_valid (movie : record) : ∀ (vs : List Bytes) (actor : record),
    ∀ c ∈ actorCalls movie vs actor, ∃ fs, c.2.elems = some fs := by
  intro vs
  induction vs with
  | nil => intro actor c hc; simp [actorCalls] at hc
  | cons v vs ih =>
    intro actor c hc
    simp only [actorCalls, List.mem_cons] at hc
    rcases hc with rfl | rfl | hc
    · exact ⟨_, ofRecord_elems _⟩
    · exact ⟨_, ofRecord_elems _⟩
    · exact ih _ c hc

theorem directorCalls_tables (movie : record) : ∀ (vs : List Bytes) (director : record),
    (directorCalls movie vs director).map Prod.fst
      = (vs.map (fun _ => [cstr "people", cstr "directors"])).flatten := by
  intro vs
  induction vs with
  | nil => intro director; rfl
  | cons v vs ih => intro director; simp [directorCalls, ih]

theorem actorCalls_tables (movie : record) : ∀ (vs : List Bytes) (actor : record),
    (actorCalls movie vs actor).map Prod.fst
      = (vs.map (fun _ => [cstr "people", cstr "characters"])).flatten := by
  intro vs
  induction vs with
  | nil => intro actor; rfl
  | cons v vs ih => intro actor; simp [actorCalls, ih]

theorem directorCalls_length (movie : record) : ∀ (vs : List Bytes) (director : record),
    (directorCalls movie vs director).length = 2 * vs.length := by
  intro vs
  induction vs with
  | nil => intro director; rfl
  | cons v vs ih => intro director; simp [directorCalls, ih]; omega

theorem actorCalls_length (movie : record) : ∀ (vs : List Bytes) (actor : record),
    (actorCalls movie vs actor).length = 2 * vs.length := by
  intro vs
  induction vs with
  | nil => intro actor; rfl
  | cons v vs ih => intro actor; simp [actorCalls, ih]; omega

theorem insertText_terminated (db : DB) (table : Bytes) (fs : List field) :
    (cstr ";\n").isSuffixOf (insertText db table fs) = true := by
  rw [List.isSuffixOf_iff_suffix]
  have e2 : cstr ");\n" = cstr ")" ++ cstr ";\n" := by decide
  have e3 : cstr ") ON CONFLICT DO NOTHING;\n"
      = cstr ") ON CONFLICT DO NOTHING" ++ cstr ";\n" := by decide
  cases db with
  | MySQL =>
    simp only [insertText, e2, ← List.append_assoc]
    exact List.suffix_append _ _
  | PostgreSQL =>
    simp only [insertText, e3, ← List.append_assoc]
    exact List.suffix_append _ _

theorem movieOf_eq (db : DB) (movie : record) (line : Bytes)
    (hm : movie.fields.map field.name = raw_movie_fields) :
    movieOf db movie line
      = ({ fields := movieFields line } : record).setValue (-3) (genreOf db line) := by
  simp only [movieOf, parse_movie movie line hm]
  rfl

theorem movieOf_view (db : DB) (movie : record) (line : Bytes)
    (hm : movie.fields.map field.name = raw_movie_fields) :
    ({ view := movieOf db movie line, begin := 0, end_ := -2 } : record_view).elems
      = some (movieRow line (genreOf db line)) := by
  rw [movieOf_eq db movie line hm]
  rfl

theorem movieOf_directors (db : DB) (movie : record) (line : Bytes)
    (hm : movie.fields.map field.name = raw_movie_fields) :
    ((movieOf db movie line).get (-2)).value = (pieces movie_delimiter line).getD 13 [] := by
  rw [movieOf_eq db movie line hm]
  rfl

theorem movieOf_cast (db : DB) (movie : record) (line : Bytes)
    (hm : movie.fields.map field.name = raw_movie_fields) :
    ((movieOf db movie line).get (-1)).value = (pieces movie_delimiter line).getD 14 [] := by
  rw [movieOf_eq db movie line hm]
  rfl

theorem callsOf_valid (db : DB) (movie : record) (line : Bytes)
    (hm : movie.fields.map field.name = raw_movie_fields) :
    ∀ c ∈ callsOf db movie line, ∃ fs, c.2.elems = some fs := by
  intro c hc
  simp only [callsOf, List.mem_cons, List.mem_append] at hc
  rcases hc with rfl | hc | hc
  · exact ⟨_, movieOf_view db movie line hm⟩
  · exact directorCalls_valid _ _ _ c hc
  · exact actorCalls_valid _ _ _ c hc

theorem movieRow_names (line g : Bytes) :
    (movieRow line g).map field.name = raw_movie_fields.take 13 := rfl

theorem emitted_names_subset (fs : List field) (n : Bytes)
    (hn : n ∈ (emitted fs).map field.name) : n ∈ fs.map field.name := by
  obtain ⟨f, hf, rfl⟩ := List.mem_map.mp hn
  exact List.mem_map.mpr ⟨f, ((mem_emitted fs f).mp hf).1, rfl⟩

theorem directorCalls_congr (m1 m2 : record) (h : (m1.get 0).value = (m2.get 0).value) :
    ∀ (vs : List Bytes) (director : record),
      directorCalls m1 vs director = directorCalls m2 vs director := by
  intro vs
  induction vs with
  | nil => intro director; rfl
  | cons v vs ih => intro director; simp only [directorCalls, h, ih]

theorem actorCalls_congr (m1 m2 : record) (h : (m1.get 0).value = (m2.get 0).value) :
    ∀ (vs : List Bytes) (actor : record),
      actorCalls m1 vs actor = actorCalls m2 vs actor := by
  intro vs
  induction vs with
  | nil => intro actor; rfl
  | cons v vs ih => intro actor; simp only [actorCalls, h, ih]

theorem movieOf_id (db : DB) (movie : record) (line : Bytes)
    (hm : movie.fields.map field.name = raw_movie_fields) :
    ((movieOf db movie line).get 0).value = (pieces movie_delimiter line).getD 0 [] := by
  rw [movieOf_eq db movie line hm]
  rfl

theorem emitted_append_single (fs : List field) (f : field) (hf : f.value ≠ []) :
    emitted (fs ++ [f]) = emitted fs ++ [f] := by
  have : f.is_empty = false := by
    simp [field.is_empty, hf]
  simp [emitted, List.filter_append, List.filter_cons, this]

theorem movieRow_columns (line g : Bytes) (hg : g ≠ []) :
    (emitted (movieRow line g)).map field.name
      = (emitted ((movieFields line).take 12)).map field.name ++ [cstr "genre"] := by
  unfold movieRow
  rw [emitted_append_single _ _ hg]
  simp

/-! ## The buffer of `genres` -/

theorem parse_congr_names (r1 r2 : record) (s d : Bytes)
    (h : r1.fields.map field.name = r2.fields.map field.name) :
    (r1.parse s d).1 = (r2.parse s d).1 := by
  have hl : r1.fields.length = r2.fields.length := by
    have := congrArg List.length h
    simpa using this
  simp only [record.parse, parseFields_zip, h, hl]

theorem parse_names (r : record) (s d : Bytes) :
    (r.parse s d).1.fields.map field.name = r.fields.map field.name :=
  parseFields_names _ _

theorem genresBody_count_pos : ∀ (vs : List Bytes) (g : record) (k : Nat) (buffer : Bytes),
    g.fields.map field.name = raw_genre_fields →
    genresBody vs g { delimiter := some (cstr ","), count := k + 1 } buffer
      = buffer ++ (vs.map (fun v => cstr "," ++
          ((((record.ofNames raw_genre_fields).parse v value_delimiter).1).get 1).value)).flatten := by
  intro vs
  induction vs with
  | nil => intro g k buffer _; simp [genresBody]
  | cons v vs ih =>
    intro g k buffer hg
    have hp : (g.parse v value_delimiter).1
        = ((record.ofNames raw_genre_fields).parse v value_delimiter).1 :=
      parse_congr_names _ _ _ _ (by rw [hg]; rfl)
    have hn : (g.parse v value_delimiter).1.fields.map field.name = raw_genre_fields := by
      rw [parse_names, hg]
    simp only [genresBody, ostream_iterator.postInc, ostream_iterator.inc,
      ostream_iterator.assign]
    rw [ih _ _ _ hn, hp]
    simp

theorem genresBody_join (vs : List Bytes) :
    genresBody vs (record.ofNames raw_genre_fields)
        { delimiter := some (cstr ","), count := 0 } []
      = joinWith (cstr ",") (vs.map (fun v =>
          ((((record.ofNames raw_genre_fields).parse v value_delimiter).1).get 1).value)) := by
  cases vs with
  | nil => rfl
  | cons v vs =>
    have hn : ((record.ofNames raw_genre_fields).parse v value_delimiter).1.fields.map field.name
        = raw_genre_fields := by
      rw [parse_names]; rfl
    simp only [genresBody, ostream_iterator.postInc, ostream_iterator.inc,
      ostream_iterator.assign]
    rw [genresBody_count_pos vs _ 0 _ hn]
    simp only [List.map_cons, joinWith_cons_flatten, List.map_map, Function.comp_def,
      List.nil_append]

theorem genres_extracts_joined (f : field) :
    genres f = some (quotedIn SQUOTE SQUOTE (joinWith (cstr ",") (genreNames f))) := by
  rw [genres_eq, genresText, genresBody_join, genreNames]

/-! ## Reachable states of the splitter -/

theorem atPos_next_exists (s d : Bytes) (pos : Nat) (hpos : pos ≤ s.length) :
    ∃ pos2, pos2 ≤ s.length ∧ pos ≤ pos2 ∧ (splitter.atPos s d pos).next = splitter.atPos s d pos2 := by
  by_cases h : pos < s.length
  · refine ⟨min ((splitter.atPos s d pos).end_ + d.length) s.length, Nat.min_le_right _ _, ?_, ?_⟩
    · have he : pos ≤ (splitter.atPos s d pos).end_ := by
        simp only [splitter.atPos, find, hpos, if_true, findAt_eq_cutFirst]
        cases cutFirst d (List.drop pos s) with
        | none => simp [minFind]; omega
        | some p => simp [minFind]; omega
      omega
    · simp only [splitter.next, splitter.atPos, h, if_true]
  · refine ⟨pos, hpos, Nat.le_refl _, ?_⟩
    simp only [splitter.next, splitter.atPos, h, if_false]

theorem advance_reachable (s d : Bytes) : ∀ (n pos : Nat), pos ≤ s.length →
    ∃ pos2, pos2 ≤ s.length ∧ pos ≤ pos2
      ∧ splitter.advance n (splitter.atPos s d pos) = splitter.atPos s d pos2 := by
  intro n
  induction n with
  | zero => intro pos hpos; exact ⟨pos, hpos, Nat.le_refl _, rfl⟩
  | succ n ih =>
    intro pos hpos
    obtain ⟨p1, hp1, hle1, e1⟩ := atPos_next_exists s d pos hpos
    obtain ⟨p2, hp2, hle2, e2⟩ := ih p1 hp1
    refine ⟨p2, hp2, Nat.le_trans hle1 hle2, ?_⟩
    simp only [splitter.advance, e1, e2]

theorem advance_terminal (s d : Bytes) : ∀ (m : Nat),
    splitter.advance m (splitter.atPos s d s.length) = splitter.atPos s d s.length := by
  intro m
  induction m with
  | zero => rfl
  | succ m ih => simp only [splitter.advance, atPos_terminal_next, ih]

theorem atPos_terminal_end (s d : Bytes) : (splitter.atPos s d s.length).end_ = s.length := by
  simp only [splitter.atPos, find, Nat.le_refl, if_true, findAt_eq_cutFirst]
  cases cutFirst d (List.drop s.length s) with
  | none => simp [minFind]
  | some p => simp [minFind]

theorem cutFirst_none_of_occurrences (d : Bytes) : ∀ (r : Bytes),
    occurrences d r = 0 → cutFirst d r = none := by
  intro r
  induction r with
  | nil =>
    intro h
    unfold occurrences at h
    unfold cutFirst
    split at h
    · simp at h
    · rename_i hp; simp [hp]
  | cons c t ih =>
    intro h
    unfold occurrences at h
    unfold cutFirst
    by_cases hp : d.isPrefixOf (c :: t) = true
    · simp [hp] at h
    · simp only [hp, Bool.false_eq_true, if_false, Nat.zero_add] at h
      simp [hp, ih h]

theorem atPos_last_field (s d : Bytes) (pos : Nat) (hpos : pos ≤ s.length)
    (h : occurrences d (s.drop pos) = 0) :
    (splitter.atPos s d pos).deref = s.drop pos
      ∧ (splitter.atPos s d pos).end_ = s.length
      ∧ (splitter.atPos s d pos).next = splitter.atPos s d s.length := by
  have hc := cutFirst_none_of_occurrences d _ h
  have hs : s.take pos ++ s.drop pos = s := List.take_append_drop pos s
  have hl : (s.take pos).length = pos := by simp [List.length_take]; omega
  have h1 := atPos_deref_none (s.take pos) (s.drop pos) d hc
  have h2 := atPos_next_none (s.take pos) (s.drop pos) d hc
  rw [hs, hl] at h1 h2
  refine ⟨h1, ?_, h2⟩
  simp only [splitter.atPos, find, hpos, if_true, findAt_eq_cutFirst, hc, Option.map_none',
    minFind]

/-! ## A span that ends with the delimiter, or with an unterminated field -/

theorem isPrefixOf_self_append (d l : Bytes) : d.isPrefixOf (d ++ l) = true := by
  rw [List.isPrefixOf_iff_prefix]
  exact List.prefix_append d l

theorem cutFirst_at_head (d r : Bytes) (hd : d ≠ []) (h : d.isPrefixOf r = true) :
    cutFirst d r = some ([], r.drop d.length) := by
  cases r with
  | nil => rw [isPrefixOf_nil_false hd] at h; exact absurd h (by simp)
  | cons c t => simp [cutFirst, h]

theorem cutFirst_before_delim (d : Bytes) (hd : d ≠ []) (hnb : noOverlap d) :
    ∀ (t l : Bytes), ∃ a b, cutFirst d (t ++ (d ++ l)) = some (a, b)
      ∧ ((a = t ∧ b = l) ∨ ∃ t2, b = t2 ++ (d ++ l) ∧ t2.length < t.length) := by
  intro t
  induction t with
  | nil =>
    intro l
    refine ⟨[], l, ?_, Or.inl ⟨rfl, rfl⟩⟩
    rw [List.nil_append, cutFirst_at_head d _ hd (isPrefixOf_self_append d l)]
    simp
  | cons c t ih =>
    intro l
    by_cases hp : d.isPrefixOf ((c :: t) ++ (d ++ l)) = true
    · have hlen := hnb (c :: t) l (by simp) hp
      have hpos : 0 < d.length := List.length_pos.mpr hd
      refine ⟨[], ((c :: t).drop d.length) ++ (d ++ l), ?_, Or.inr ⟨(c :: t).drop d.length, rfl, ?_⟩⟩
      · rw [cutFirst_at_head d _ hd hp, List.drop_append_of_le_length hlen]
      · simp only [List.length_drop]
        have : 0 < (c :: t).length := by simp
        omega
    · obtain ⟨a, b, hab, hcase⟩ := ih l
      refine ⟨c :: a, b, ?_, ?_⟩
      · simp only [List.cons_append] at hp ⊢
        simp only [cutFirst, hp, Bool.false_eq_true, if_false, hab, Option.map_some']
      · rcases hcase with ⟨rfl, rfl⟩ | ⟨t2, rfl, hlt⟩
        · exact Or.inl ⟨rfl, rfl⟩
        · exact Or.inr ⟨t2, rfl, by simp only [List.length_cons]; omega⟩

theorem piecesFuel_no_cut (d l : Bytes) (h : cutFirst d l = none) (fuel : Nat) :
    piecesFuel d fuel l = [l] := by
  cases fuel with
  | zero => rfl
  | succ fuel => simp [piecesFuel, h]

theorem pieces_before_delim (d : Bytes) (hd : d ≠ []) (hnb : noOverlap d) (l : Bytes)
    (hl : cutFirst d l = none) :
    ∀ (fuel : Nat) (t : Bytes), (t ++ (d ++ l)).length ≤ fuel →
      ∃ X, piecesFuel d fuel (t ++ (d ++ l)) = X ++ [l] := by
  intro fuel
  induction fuel with
  | zero =>
    intro t h
    have hpos : 0 < d.length := List.length_pos.mpr hd
    simp only [List.length_append] at h
    omega
  | succ fuel ih =>
    intro t h
    obtain ⟨a, b, hab, hcase⟩ := cutFirst_before_delim d hd hnb t l
    simp only [piecesFuel, hab]
    rcases hcase with ⟨_, rfl⟩ | ⟨t2, rfl, hlt⟩
    · exact ⟨[a], by rw [piecesFuel_no_cut d b hl]; rfl⟩
    · have hlen : (t2 ++ (d ++ l)).length ≤ fuel := by
        simp only [List.length_append] at h ⊢
        omega
      obtain ⟨X, hX⟩ := ih t2 hlen
      exact ⟨a :: X, by rw [hX]; rfl⟩

theorem dropTrailingEmpty_append_empty : ∀ (X : List Bytes),
    dropTrailingEmpty (X ++ [[]]) = X := by
  intro X
  induction X with
  | nil => rfl
  | cons x X ih =>
    rw [List.cons_append, dropTrailingEmpty_cons x _ (by simp), ih]

theorem record_delimiter_noOverlap : noOverlap record_delimiter := by
  intro t l ht hp
  have e : record_delimiter = [226, 128, 150] := by decide
  rw [e] at hp ⊢
  rcases t with _ | ⟨c1, _ | ⟨c2, _ | ⟨c3, t⟩⟩⟩
  · exact absurd rfl ht
  · simp [List.isPrefixOf] at hp
  · simp [List.isPrefixOf] at hp
  · simp

theorem record_delimiter_no_overlap (b : Bytes) :
    occurrences record_delimiter (record_delimiter ++ b)
      = 1 + occurrences record_delimiter b := by
  have e : record_delimiter = [226, 128, 150] := by decide
  rw [e]
  simp [occurrences, List.isPrefixOf]

/-! ## Index resolution -/

theorem resolve_nonneg (r : record) (i : Int) (h : 0 ≤ i) : r.resolve i = i.toNat := by
  have : ¬ (i < 0) := by omega
  simp [record.resolve, this]

theorem resolve_negative (r : record) (i : Int) (hs : r.size < 2 ^ 64)
    (hlo : -(r.size : Int) ≤ i) (hneg : i < 0) :
    r.resolve i = ((r.size : Int) + i).toNat := by
  have h2 : ((r.size : Int) + i) % (2 ^ 64 : Int) = (r.size : Int) + i := by
    apply Int.emod_eq_of_lt
    · omega
    · have : ((2 : Int) ^ 64) = ((2 ^ 64 : Nat) : Int) := by norm_num
      rw [this]
      omega
  simp only [record.resolve, hneg, if_true, h2]

theorem get_of_lt (r : record) (i : Int) (k : Nat) (hk : r.resolve i = k)
    (hlt : k < r.fields.length) : r.fields[k]? = some (r.get i) := by
  simp only [record.get, hk, List.getD_eq_getElem?_getD, List.getElem?_eq_getElem hlt,
    Option.getD_some]

theorem elems_some_bounds (rg : range) (fs : List field) (h : rg.elems = some fs) :
    rg.start ≤ rg.end_ ∧ rg.end_ ≤ rg.fields.length := by
  unfold range.elems at h
  split at h
  · assumption
  · simp at h

/-! ## Statements of a line, the C quoting, the iterator in general -/

theorem lineStatements_eq (db : DB) (movie : record) (line : Bytes)
    (hm : movie.fields.map field.name = raw_movie_fields) :
    lineStatements db movie line = some (movieOf db movie line,
      (callsOf db movie line).map (fun c => insertText db c.1 (callFields c))) := by
  simp only [lineStatements, lineCalls_eq,
    statements_eq db _ (callsOf_valid db movie line hm), Option.map_some']

theorem emitted_cons_nonempty (f : field) (fs : List field) (hf : f.value ≠ []) :
    emitted (f :: fs) = f :: emitted fs := by
  have : f.is_empty = false := by simp [field.is_empty, hf]
  simp [emitted, List.filter_cons, this]

theorem sqlQuoteLoop_eq : ∀ (n : Nat) (mem : Bytes), n ≤ mem.length →
    sqlQuoteLoop n mem = some (quotedBody SQUOTE SQUOTE (mem.take n)) := by
  intro n
  induction n with
  | zero => intro mem _; rfl
  | succ n ih =>
    intro mem h
    cases mem with
    | nil => simp at h
    | cons c t =>
      have ht : n ≤ t.length := by simpa using h
      simp only [sqlQuoteLoop, ih t ht, Option.map_some', List.take_succ_cons, quotedBody]
      by_cases hc : c = SQUOTE
      · simp [hc]
      · simp [hc]

theorem copy_count_pos {α : Type} (write : α → Bytes) (d : Bytes) :
    ∀ (xs : List α) (k : Nat) (os : Bytes),
      ostream_iterator.copy write xs { delimiter := some d, count := k + 1 } os
        = os ++ (xs.map (fun x => d ++ write x)).flatten := by
  intro xs
  induction xs with
  | nil => intro k os; simp [ostream_iterator.copy]
  | cons x xs ih =>
    intro k os
    simp only [ostream_iterator.copy, ostream_iterator.inc, ostream_iterator.assign]
    rw [ih]
    simp

theorem putAll_eq_copy {α : Type} (write : α → Bytes) :
    ∀ (xs : List α) (it : ostream_iterator) (os : Bytes),
      ostream_iterator.putAll write xs it os = ostream_iterator.copy write xs it os := by
  intro xs
  induction xs with
  | nil => intro it os; rfl
  | cons x xs ih =>
    intro it os
    simp only [ostream_iterator.putAll, ostream_iterator.copy, ostream_iterator.postInc, ih]

set_option maxRecDepth 100000 in
theorem scenarioGenre_text :
    genresText { name := cstr "genre", value := scenarioGenre } = cstr "Action,Sci-Fi" := by
  decide

theorem movieRow_split (line g : Bytes) :
    movieRow line g
      = { name := cstr "id", value := (pieces movie_delimiter line).getD 0 [] }
        :: { name := cstr "title", value := (pieces movie_delimiter line).getD 1 [] }
        :: ((((movieFields line).take 12).drop 2) ++ [{ name := cstr "genre", value := g }]) :=
  rfl

theorem main_single_line (db : DB) (db_name : Option Bytes) (line : Bytes) :
    main_ db db_name [line]
      = some (db.use db_name
          ++ (insertText db (cstr "movies") (movieRow line (genreOf db line))
          ++ ((callsOf db (record.ofNames raw_movie_fields) line).tail.map
                (fun c => insertText db c.1 (callFields c))).flatten)) := by
  have hm : (record.ofNames raw_movie_fields).fields.map field.name = raw_movie_fields := by
    decide
  have hv := movieOf_view db (record.ofNames raw_movie_fields) line hm
  have e : callsOf db (record.ofNames raw_movie_fields) line
      = (cstr "movies",
          { view := movieOf db (record.ofNames raw_movie_fields) line, begin := 0, end_ := -2 })
        :: (callsOf db (record.ofNames raw_movie_fields) line).tail := rfl
  have hf : callFields (cstr "movies",
      ({ view := movieOf db (record.ofNames raw_movie_fields) line, begin := 0, end_ := -2 }
        : record_view)) = movieRow line (genreOf db line) := by
    simp only [callFields, hv, Option.getD_some]
  simp only [main_, mainLoop, lineStatements_eq db _ line hm, Option.map_some']
  rw [e]
  simp only [List.map_cons, List.flatten_cons, hf, List.tail_cons, List.append_nil]

/-! ## Bounds and progress of the splitter -/

theorem atPos_bounds (s d : Bytes) (pos : Nat) (hpos : pos ≤ s.length) :
    pos ≤ (splitter.atPos s d pos).end_ ∧ (splitter.atPos s d pos).end_ ≤ s.length := by
  simp only [splitter.atPos, find, hpos, if_true, findAt_eq_cutFirst]
  cases cutFirst d (List.drop pos s) with
  | none => simp [minFind]; omega
  | some p => simp [minFind]; omega

theorem atPos_next_begin (s d : Bytes) (pos : Nat) (h : pos < s.length) :
    (splitter.atPos s d pos).next.begin
      = min ((splitter.atPos s d pos).end_ + d.length) s.length := by
  simp only [splitter.next, splitter.atPos, h, if_true]

theorem loop_length_le : ∀ (fuel : Nat) (it : splitter) (views : List Bytes),
    splitter.loop fuel it = some views → views.length ≤ fuel := by
  intro fuel
  induction fuel with
  | zero =>
    intro it views h
    unfold splitter.loop at h
    split at h
    · simp at h
    · simp only [Option.some.injEq] at h
      subst h
      simp
  | succ fuel ih =>
    intro it views h
    unfold splitter.loop at h
    split at h
    · cases hl : splitter.loop fuel (it.postInc).2 with
      | none => simp [hl] at h
      | some l =>
        simp only [hl, Option.map_some', Option.some.injEq] at h
        subst h
        have := ih _ l hl
        simp only [List.length_cons]
        omega
    · simp only [Option.some.injEq] at h
      subst h
      simp

/-! ## The C `parse_record` when no delimiter straddles `end` -/

theorem piecesFuel_fuel (d : Bytes) (hd : d ≠ []) : ∀ (f1 f2 : Nat) (r : Bytes),
    r.length ≤ f1 → r.length ≤ f2 → piecesFuel d f1 r = piecesFuel d f2 r := by
  intro f1
  induction f1 with
  | zero =>
    intro f2 r h1 _
    have : r = [] := List.length_eq_zero.mp (Nat.le_zero.mp h1)
    subst this
    have hc : cutFirst d [] = none := by simp [cutFirst, isPrefixOf_nil_false hd]
    rw [piecesFuel_no_cut d [] hc, piecesFuel_no_cut d [] hc]
  | succ f1 ih =>
    intro f2 r h1 h2
    cases hc : cutFirst d r with
    | none => rw [piecesFuel_no_cut d r hc, piecesFuel_no_cut d r hc]
    | some p =>
      obtain ⟨a, b⟩ := p
      have hspec := cutFirst_spec d r a b hc
      have hl : r.length = a.length + d.length + b.length := by rw [hspec]; simp; omega
      have hpos : 0 < d.length := List.length_pos.mpr hd
      cases f2 with
      | zero => omega
      | succ f2 =>
        simp only [piecesFuel, hc]
        rw [ih f2 b (by omega) (by omega)]

theorem pieces_cons (d : Bytes) (hd : d ≠ []) (T a b : Bytes) (hc : cutFirst d T = some (a, b)) :
    pieces d T = a :: pieces d b := by
  have hspec := cutFirst_spec d T a b hc
  have hl : T.length = a.length + d.length + b.length := by rw [hspec]; simp; omega
  have hpos : 0 < d.length := List.length_pos.mpr hd
  unfold pieces
  obtain ⟨k, hk⟩ : ∃ k, T.length = k + 1 := ⟨T.length - 1, by omega⟩
  rw [hk]
  simp only [piecesFuel, hc]
  rw [piecesFuel_fuel d hd k b.length b (by omega) (Nat.le_refl _)]

theorem pieces_single (d T : Bytes) (hc : cutFirst d T = none) : pieces d T = [T] :=
  piecesFuel_no_cut d T hc T.length


theorem cutFirst_within (d : Bytes) (hd : d ≠ []) (rest : Bytes) :
    ∀ (T : Bytes), noStraddle d T rest →
      (cutFirst d T = none →
        ∀ a b, cutFirst d (T ++ rest) = some (a, b) → T.length ≤ a.length) ∧
      (∀ a b, cutFirst d T = some (a, b) → ∃ b2, cutFirst d (T ++ rest) = some (a, b2)) := by
  intro T
  induction T with
  | nil =>
    intro _
    have hc : cutFirst d [] = none := by simp [cutFirst, isPrefixOf_nil_false hd]
    refine ⟨fun _ a b _ => by simp, ?_⟩
    intro a b h
    rw [hc] at h
    simp at h
  | cons c T ih =>
    intro hns
    have hns2 : noStraddle d T rest := by
      intro u v hT hv hp
      exact hns (c :: u) v (by rw [hT]; rfl) hv hp
    obtain ⟨ih1, ih2⟩ := ih hns2
    by_cases hp : d.isPrefixOf ((c :: T) ++ rest) = true
    · have hlen := hns [] (c :: T) rfl (by simp) hp
      have hpT : d.isPrefixOf (c :: T) = true := by
        rw [List.isPrefixOf_iff_prefix] at hp ⊢
        exact List.prefix_of_prefix_length_le hp (List.prefix_append _ _) hlen
      constructor
      · intro h
        rw [cutFirst_at_head d _ hd hpT] at h
        simp at h
      · intro a b h
        rw [cutFirst_at_head d _ hd hpT] at h
        simp only [Option.some.injEq, Prod.mk.injEq] at h
        obtain ⟨rfl, _⟩ := h
        exact ⟨_, cutFirst_at_head d _ hd hp⟩
    · have hpT : ¬ (d.isPrefixOf (c :: T) = true) := by
        intro h
        apply hp
        rw [List.isPrefixOf_iff_prefix] at h ⊢
        exact h.trans (List.prefix_append _ _)
      have e1 : cutFirst d (c :: T) = (cutFirst d T).map (fun p => (c :: p.1, p.2)) := by
        simp only [cutFirst, hpT, Bool.false_eq_true, if_false]
      have e2 : cutFirst d ((c :: T) ++ rest)
          = (cutFirst d (T ++ rest)).map (fun p => (c :: p.1, p.2)) := by
        simp only [List.cons_append] at hp ⊢
        simp only [cutFirst, hp, Bool.false_eq_true, if_false]
      constructor
      · intro h a b hab
        rw [e1] at h
        have hT : cutFirst d T = none := by
          cases hx : cutFirst d T with
          | none => rfl
          | some p => simp [hx] at h
        rw [e2] at hab
        cases hx : cutFirst d (T ++ rest) with
        | none => simp [hx] at hab
        | some p =>
          obtain ⟨a1, b1⟩ := p
          simp only [hx, Option.map_some', Option.some.injEq, Prod.mk.injEq] at hab
          obtain ⟨rfl, _⟩ := hab
          have := ih1 hT a1 b1 hx
          simp only [List.length_cons]
          omega
      · intro a b hab
        rw [e1] at hab
        cases hx : cutFirst d T with
        | none => simp [hx] at hab
        | some p =>
          obtain ⟨a1, b1⟩ := p
          simp only [hx, Option.map_some', Option.some.injEq, Prod.mk.injEq] at hab
          obtain ⟨rfl, _⟩ := hab
          obtain ⟨b2, hb2⟩ := ih2 a1 b1 hx
          exact ⟨b2, by rw [e2, hb2]; rfl⟩

theorem noStraddle_after (d a b rest T : Bytes) (hT : T = a ++ d ++ b)
    (hns : noStraddle d T rest) : noStraddle d b rest := by
  intro u v hb hv hp
  exact hns (a ++ d ++ u) v (by rw [hT, hb]; simp) hv hp

theorem ptrDiff_of_le (stop line : Nat) (h : line ≤ stop) (hs : stop < 2 ^ 64) :
    ptrDiff stop line = stop - line := by
  unfold ptrDiff
  have e : stop + 2 ^ 64 - line = (stop - line) + 2 ^ 64 := by omega
  rw [e, Nat.add_mod_right]
  exact Nat.mod_eq_of_lt (by omega)

theorem clampStop_none (d : Bytes) (hd : d ≠ []) (pre T rest : Bytes)
    (hns : noStraddle d T rest) (hc : cutFirst d T = none) :
    clampStop (find (pre ++ (T ++ rest)) d pre.length) (pre ++ T).length
      = (pre ++ T).length := by
  rw [find_append]
  cases hx : cutFirst d (T ++ rest) with
  | none => rfl
  | some p =>
    obtain ⟨a, b⟩ := p
    have := (cutFirst_within d hd rest T hns).1 hc a b hx
    simp only [Option.map_some', clampStop, List.length_append]
    split <;> omega

theorem clampStop_some (d : Bytes) (hd : d ≠ []) (pre T rest a b : Bytes)
    (hns : noStraddle d T rest) (hc : cutFirst d T = some (a, b)) :
    clampStop (find (pre ++ (T ++ rest)) d pre.length) (pre ++ T).length
      = pre.length + a.length := by
  rw [find_append]
  obtain ⟨b2, hb2⟩ := (cutFirst_within d hd rest T hns).2 a b hc
  have hspec := cutFirst_spec d T a b hc
  have hl : T.length = a.length + d.length + b.length := by rw [hspec]; simp; omega
  simp only [hb2, Option.map_some', clampStop, List.length_append]
  split <;> omega

theorem cview_setMarker (pre T rest : Bytes) (n : Nat) (f : cfield) (hn : n ≤ T.length)
    (hs : (pre ++ T).length < 2 ^ 64) :
    cview (pre ++ (T ++ rest)) (setMarker pre.length (pre.length + n) f)
      = (f.name, T.take n) := by
  have hlt : pre.length + n < 2 ^ 64 := by
    simp only [List.length_append] at hs
    omega
  simp only [cview, setMarker, fldtext, ptrDiff_of_le _ _ (Nat.le_add_right _ _) hlt,
    List.drop_left, Nat.add_sub_cancel_left]
  rw [List.take_append_of_le_length hn]

theorem parseRecordLoop_succ (buf d : Bytes) (end_ fc line i : Nat) (fields : List cfield) :
    parseRecordLoop buf d end_ (fc + 1) line i fields
      = if fc = 0 ∨ end_ < clampStop (find buf d line) end_ then
          fields.modify (setMarker line (clampStop (find buf d line) end_)) i
        else if clampStop (find buf d line) end_ < end_ then
          parseRecordLoop buf d end_ fc (clampStop (find buf d line) end_ + d.length) (i + 1)
            (fields.modify (setMarker line (clampStop (find buf d line) end_)) i)
        else fields.modify (setMarker line (clampStop (find buf d line) end_)) i := rfl

theorem single_write (pre T rest : Bytes) (n i : Nat) (fields : List cfield) (P : List Bytes)
    (hn : n ≤ T.length) (hs : (pre ++ T).length < 2 ^ 64) (hP : P.getD 0 [] = T.take n) :
    (fields.modify (setMarker pre.length (pre.length + n)) i).length = fields.length ∧
    (∀ j, (j < i ∨ i + 1 ≤ j) →
      (fields.modify (setMarker pre.length (pre.length + n)) i)[j]? = fields[j]?) ∧
    (∀ k, k < 1 →
      ((fields.modify (setMarker pre.length (pre.length + n)) i)[i + k]?).map
          (cview (pre ++ (T ++ rest)))
        = (fields[i + k]?).map (fun f => (f.name, P.getD k []))) := by
  refine ⟨List.length_modify _ _ _, ?_, ?_⟩
  · intro j hj
    have hne : i ≠ j := by omega
    exact List.getElem?_modify_ne _ _ hne
  · intro k hk
    have hk0 : k = 0 := by omega
    subst hk0
    rw [Nat.add_zero, List.getElem?_modify_eq, hP]
    cases fields[i]? with
    | none => rfl
    | some f =>
      simp only [Option.map_eq_map, Option.map_some']
      rw [cview_setMarker pre T rest n f hn hs]

theorem parseRecordLoop_spec (d : Bytes) (hd : d ≠ []) (rest : Bytes) :
    ∀ (fc : Nat) (pre T : Bytes) (i : Nat) (fields : List cfield),
      (pre ++ T).length < 2 ^ 64 → noStraddle d T rest →
      (parseRecordLoop (pre ++ (T ++ rest)) d (pre ++ T).length (fc + 1) pre.length i
          fields).length = fields.length ∧
      (∀ j, (j < i ∨ i + min (pieces d T).length (fc + 1) ≤ j) →
        (parseRecordLoop (pre ++ (T ++ rest)) d (pre ++ T).length (fc + 1) pre.length i
          fields)[j]? = fields[j]?) ∧
      (∀ k, k < min (pieces d T).length (fc + 1) →
        ((parseRecordLoop (pre ++ (T ++ rest)) d (pre ++ T).length (fc + 1) pre.length i
            fields)[i + k]?).map (cview (pre ++ (T ++ rest)))
          = (fields[i + k]?).map (fun f => (f.name, (pieces d T).getD k []))) := by
  intro fc
  induction fc with
  | zero =>
    intro pre T i fields hs hns
    have hmin : min (pieces d T).length (0 + 1) = 1 := by
      have : 1 ≤ (pieces d T).length := by
        have := piecesFuel_ne_nil d T.length T
        exact List.length_pos.mpr this
      omega
    rw [hmin]
    cases hc : cutFirst d T with
    | none =>
      have hstop := clampStop_none d hd pre T rest hns hc
      have hR : parseRecordLoop (pre ++ (T ++ rest)) d (pre ++ T).length (0 + 1) pre.length i
          fields = fields.modify (setMarker pre.length (pre.length + T.length)) i := by
        rw [parseRecordLoop_succ, hstop]
        simp
      rw [hR]
      exact single_write pre T rest T.length i fields (pieces d T) (Nat.le_refl _) hs
        (by rw [pieces_single d T hc]; simp)
    | some p =>
      obtain ⟨a, b⟩ := p
      have hstop := clampStop_some d hd pre T rest a b hns hc
      have hspec := cutFirst_spec d T a b hc
      have hl : T.length = a.length + d.length + b.length := by rw [hspec]; simp; omega
      have hR : parseRecordLoop (pre ++ (T ++ rest)) d (pre ++ T).length (0 + 1) pre.length i
          fields = fields.modify (setMarker pre.length (pre.length + a.length)) i := by
        rw [parseRecordLoop_succ, hstop]
        simp
      rw [hR]
      exact single_write pre T rest a.length i fields (pieces d T) (by omega) hs
        (by rw [pieces_cons d hd T a b hc, hspec]; simp)
  | succ fc ih =>
    intro pre T i fields hs hns
    cases hc : cutFirst d T with
    | none =>
      have hmin : min (pieces d T).length (fc + 1 + 1) = 1 := by
        rw [pieces_single d T hc]; simp
      rw [hmin]
      have hstop := clampStop_none d hd pre T rest hns hc
      have hR : parseRecordLoop (pre ++ (T ++ rest)) d (pre ++ T).length (fc + 1 + 1) pre.length
          i fields = fields.modify (setMarker pre.length (pre.length + T.length)) i := by
        rw [parseRecordLoop_succ, hstop]
        simp
      rw [hR]
      exact single_write pre T rest T.length i fields (pieces d T) (Nat.le_refl _) hs
        (by rw [pieces_single d T hc]; simp)
    | some p =>
      obtain ⟨a, b⟩ := p
      have hstop := clampStop_some d hd pre T rest a b hns hc
      have hspec := cutFirst_spec d T a b hc
      have hl : T.length = a.length + d.length + b.length := by rw [hspec]; simp; omega
      have hpos : 0 < d.length := List.length_pos.mpr hd
      have hbuf : pre ++ (T ++ rest) = (pre ++ a ++ d) ++ (b ++ rest) := by
        rw [hspec]; simp
      have hend : (pre ++ T).length = ((pre ++ a ++ d) ++ b).length := by
        rw [hspec]; simp
      have hline : pre.length + a.length + d.length = (pre ++ a ++ d).length := by
        simp; omega
      have hs2 : ((pre ++ a ++ d) ++ b).length < 2 ^ 64 := by rw [← hend]; exact hs
      have hns2 := noStraddle_after d a b rest T hspec hns
      obtain ⟨w1, _, _⟩ := single_write pre T rest a.length i fields (pieces d T) (by omega) hs
        (by rw [pieces_cons d hd T a b hc, hspec]; simp)
      have hR : parseRecordLoop (pre ++ (T ++ rest)) d (pre ++ T).length (fc + 1 + 1) pre.length
          i fields
          = parseRecordLoop ((pre ++ a ++ d) ++ (b ++ rest)) d ((pre ++ a ++ d) ++ b).length
              (fc + 1) (pre ++ a ++ d).length (i + 1)
              (fields.modify (setMarker pre.length (pre.length + a.length)) i) := by
        rw [parseRecordLoop_succ, hstop]
        have h1 : ¬ (fc + 1 = 0 ∨ (pre ++ T).length < pre.length + a.length) := by
          simp only [List.length_append]; omega
        have h2 : pre.length + a.length < (pre ++ T).length := by
          simp only [List.length_append]; omega
        rw [if_neg h1, if_pos h2, hline, hend, hbuf]
      obtain ⟨i1, i2, i3⟩ := ih (pre ++ a ++ d) b (i + 1)
        (fields.modify (setMarker pre.length (pre.length + a.length)) i) hs2 hns2
      rw [hR]
      have hpl : (pieces d T).length = (pieces d b).length + 1 := by
        rw [pieces_cons d hd T a b hc]; simp
      have hmin : min (pieces d T).length (fc + 1 + 1)
          = min (pieces d b).length (fc + 1) + 1 := by
        rw [hpl]; omega
      refine ⟨by rw [i1, w1], ?_, ?_⟩
      · intro j hj
        rw [hmin] at hj
        have hne : i ≠ j := by omega
        rw [i2 j (by omega)]
        exact List.getElem?_modify_ne _ _ hne
      · intro k hk
        rw [hmin] at hk
        cases k with
        | zero =>
          simp only [Nat.add_zero]
          rw [i2 i (by omega)]
          have := (single_write pre T rest a.length i fields (pieces d T) (by omega) hs
            (by rw [pieces_cons d hd T a b hc, hspec]; simp)).2.2 0 (by omega)
          simpa using this
        | succ k =>
          have e : i + (k + 1) = i + 1 + k := by omega
          rw [e, ← hbuf] at *
          have h3 := i3 k (by omega)
          rw [← hbuf] at h3
          rw [h3]
          have hne : i ≠ i + 1 + k := by omega
          rw [List.getElem?_modify_ne _ _ hne, pieces_cons d hd T a b hc]
          rfl

theorem parse_record_frame (buf d : Bytes) (line end_ : Nat) (fields : List cfield)
    (field_count : Nat) (hd : d ≠ []) (hfc : 0 < field_count) (hle : line ≤ end_)
    (hend : end_ ≤ buf.length) (hs : end_ < 2 ^ 64)
    (hns : noStraddle d ((buf.drop line).take (end_ - line)) (buf.drop end_)) :
    (parse_record buf line end_ d fields field_count).1 = 0 ∧
    (parse_record buf line end_ d fields field_count).2.length = fields.length ∧
    (∀ j, min (pieces d ((buf.drop line).take (end_ - line))).length field_count ≤ j →
      (parse_record buf line end_ d fields field_count).2[j]? = fields[j]?) ∧
    (∀ k, k < min (pieces d ((buf.drop line).take (end_ - line))).length field_count →
      ((parse_record buf line end_ d fields field_count).2[k]?).map (cview buf)
        = (fields[k]?).map
            (fun f => (f.name, (pieces d ((buf.drop line).take (end_ - line))).getD k []))) := by
  obtain ⟨fc, rfl⟩ : ∃ fc, field_count = fc + 1 := ⟨field_count - 1, by omega⟩
  have hbuf : buf.take line ++ ((buf.drop line).take (end_ - line) ++ buf.drop end_) = buf := by
    have e : buf.drop end_ = (buf.drop line).drop (end_ - line) := by
      rw [List.drop_drop]
      congr 1
      omega
    rw [e, List.take_append_drop, List.take_append_drop]
  have hpre : (buf.take line).length = line := by
    rw [List.length_take]; omega
  have hT : (buf.take line ++ (buf.drop line).take (end_ - line)).length = end_ := by
    rw [List.length_append, List.length_take, List.length_take, List.length_drop]; omega
  have h := parseRecordLoop_spec d hd (buf.drop end_) fc (buf.take line)
    ((buf.drop line).take (end_ - line)) 0 fields (by rw [hT]; exact hs) hns
  rw [hbuf, hpre, hT] at h
  obtain ⟨h1, h2, h3⟩ := h
  have hp : parse_record buf line end_ d fields (fc + 1)
      = (0, parseRecordLoop buf d end_ (fc + 1) line 0 fields) := by
    simp [parse_record]
  rw [hp]
  refine ⟨rfl, h1, ?_, ?_⟩
  · intro j hj
    exact h2 j (Or.inr (by omega))
  · intro k hk
    have := h3 k hk
    simpa using this

/-! ## The state that yields the last field -/

theorem movie_delimiter_noOverlap : noOverlap movie_delimiter := by
  intro t l ht hp
  have e : movie_delimiter = [226, 128, 163] := by decide
  rw [e] at hp ⊢
  rcases t with _ | ⟨c1, _ | ⟨c2, _ | ⟨c3, t⟩⟩⟩
  · exact absurd rfl ht
  · simp [List.isPrefixOf] at hp
  · simp [List.isPrefixOf] at hp
  · simp

theorem advance_succ (n : Nat) (it : splitter) :
    splitter.advance (n + 1) it = splitter.advance n it.next := rfl

theorem advance_before_delim (d : Bytes) (hd : d ≠ []) (hnb : noOverlap d) (l : Bytes)
    (hl : cutFirst d l = none) :
    ∀ (fuel : Nat) (pre t : Bytes), (t ++ (d ++ l)).length ≤ fuel →
      ∃ X, piecesFuel d fuel (t ++ (d ++ l)) = X ++ [l] ∧
        splitter.advance X.length (splitter.atPos (pre ++ (t ++ (d ++ l))) d pre.length)
          = splitter.atPos (pre ++ (t ++ (d ++ l))) d (pre.length + t.length + d.length) := by
  intro fuel
  induction fuel with
  | zero =>
    intro pre t h
    have hpos : 0 < d.length := List.length_pos.mpr hd
    simp only [List.length_append] at h
    omega
  | succ fuel ih =>
    intro pre t h
    obtain ⟨a, b, hab, hcase⟩ := cutFirst_before_delim d hd hnb t l
    have hn := atPos_next_some pre (t ++ (d ++ l)) d a b hd hab
    have hspec := cutFirst_spec d (t ++ (d ++ l)) a b hab
    simp only [piecesFuel, hab]
    rcases hcase with ⟨rfl, rfl⟩ | ⟨t2, rfl, hlt⟩
    · refine ⟨[a], by rw [piecesFuel_no_cut d b hl]; rfl, ?_⟩
      simp only [List.length_singleton, advance_succ, splitter.advance, hn]
      congr 1
      simp only [List.length_append]
    · have hlen : (t2 ++ (d ++ l)).length ≤ fuel := by
        simp only [List.length_append] at h ⊢
        omega
      obtain ⟨X, hX, hadv⟩ := ih (pre ++ a ++ d) t2 hlen
      refine ⟨a :: X, by rw [hX]; rfl, ?_⟩
      have hlt2 : t.length = a.length + d.length + t2.length := by
        have := congrArg List.length hspec
        simp only [List.length_append] at this
        omega
      have e : pre ++ (t ++ (d ++ l)) = (pre ++ a ++ d) ++ (t2 ++ (d ++ l)) := by
        rw [hspec]; simp only [List.append_assoc]
      simp only [List.length_cons, advance_succ, hn]
      rw [e, hadv]
      congr 1
      simp only [List.length_append]
      omega

theorem dropTrailingEmpty_append_nonempty (l : Bytes) (hl : l ≠ []) : ∀ (X : List Bytes),
    dropTrailingEmpty (X ++ [l]) = X ++ [l] := by
  intro X
  induction X with
  | nil => simp [dropTrailingEmpty, hl]
  | cons x X ih =>
    cases X with
    | nil => simp [dropTrailingEmpty, hl]
    | cons y Y =>
      have ih2 : dropTrailingEmpty (y :: (Y ++ [l])) = y :: (Y ++ [l]) := ih
      show x :: dropTrailingEmpty (y :: (Y ++ [l])) = x :: y :: (Y ++ [l])
      rw [ih2]

theorem last_field_reached (d : Bytes) (hd : d ≠ []) (hnb : noOverlap d) (t l : Bytes)
    (hl : occurrences d l = 0) :
    ∃ X, pieces d (t ++ (d ++ l)) = X ++ [l] ∧
      splitter.advance X.length (splitter.init (t ++ (d ++ l)) d)
        = splitter.atPos (t ++ (d ++ l)) d (t ++ d).length := by
  have hc := cutFirst_none_of_occurrences d l hl
  obtain ⟨X, hX, hadv⟩ := advance_before_delim d hd hnb l hc (t ++ (d ++ l)).length [] t
    (Nat.le_refl _)
  refine ⟨X, hX, ?_⟩
  rw [splitter_init_eq]
  simp only [List.nil_append, List.length_nil, Nat.zero_add] at hadv
  rw [hadv, List.length_append]

theorem advance_pieces (d : Bytes) (hd : d ≠ []) :
    ∀ (fuel : Nat) (pre r : Bytes), r.length ≤ fuel →
      ∃ X l, piecesFuel d fuel r = X ++ [l] ∧ occurrences d l = 0 ∧
        l.length ≤ r.length ∧
        splitter.advance X.length (splitter.atPos (pre ++ r) d pre.length)
          = splitter.atPos (pre ++ r) d ((pre ++ r).length - l.length) ∧
        (pre ++ r).drop ((pre ++ r).length - l.length) = l := by
  intro fuel
  induction fuel with
  | zero =>
    intro pre r hr
    have : r = [] := List.length_eq_zero.mp (Nat.le_zero.mp hr)
    subst this
    refine ⟨[], [], rfl, ?_, Nat.le_refl _, ?_, ?_⟩
    · simp [occurrences, isPrefixOf_nil_false hd]
    · simp [splitter.advance]
    · simp
  | succ fuel ih =>
    intro pre r hr
    cases hc : cutFirst d r with
    | none =>
      refine ⟨[], r, by simp [piecesFuel, hc], occurrences_cutFirst_none d r hc, Nat.le_refl _,
        ?_, ?_⟩
      · simp [splitter.advance]
      · simp
    | some p =>
      obtain ⟨a, b⟩ := p
      have hspec := cutFirst_spec d r a b hc
      have hl : r.length = a.length + d.length + b.length := by rw [hspec]; simp; omega
      have hlen : 0 < d.length := List.length_pos.mpr hd
      have hn := atPos_next_some pre r d a b hd hc
      obtain ⟨X, l, hX, hocc, hll, hadv, hdrop⟩ := ih (pre ++ a ++ d) b (by omega)
      have e : pre ++ r = (pre ++ a ++ d) ++ b := by rw [hspec]; simp
      refine ⟨a :: X, l, by simp [piecesFuel, hc, hX], hocc, by omega, ?_, ?_⟩
      · simp only [List.length_cons, advance_succ, hn]
        rw [e]
        exact hadv
      · rw [e]
        exact hdrop

theorem last_piece_reached (d : Bytes) (hd : d ≠ []) (s : Bytes) :
    ∃ X l, pieces d s = X ++ [l] ∧ occurrences d l = 0 ∧ l.length ≤ s.length ∧
      splitter.advance X.length (splitter.init s d) = splitter.atPos s d (s.length - l.length) ∧
      s.drop (s.length - l.length) = l := by
  obtain ⟨X, l, hX, hocc, hll, hadv, hdrop⟩ := advance_pieces d hd s.length [] s (Nat.le_refl _)
  simp only [List.nil_append, List.length_nil] at hadv hdrop
  exact ⟨X, l, hX, hocc, hll, by rw [splitter_init_eq]; exact hadv, hdrop⟩


/-! ## The rows of a line -/

theorem parse_director (director : record) (v : Bytes)
    (hn : director.fields.map field.name = raw_director_fields) :
    (director.parse v value_delimiter).1
      = { fields := [{ name := cstr "id", value := (pieces value_delimiter v).getD 0 [] },
                     { name := cstr "director_name",
                       value := (pieces value_delimiter v).getD 1 [] }] } := by
  have hlen : director.fields.length = 2 := by
    have := congrArg List.length hn
    simpa [raw_director_fields] using this
  simp only [record.parse, parseFields_zip, hn, hlen,
    derefs_init value_delimiter value_delimiter_ne_nil, take_append_replicate_eq]
  rfl

theorem parse_actor (actor : record) (v : Bytes)
    (hn : actor.fields.map field.name = raw_actor_fields) :
    (actor.parse v value_delimiter).1
      = { fields := [{ name := cstr "id", value := (pieces value_delimiter v).getD 0 [] },
                     { name := cstr "actor_name",
                       value := (pieces value_delimiter v).getD 1 [] },
                     { name := cstr "character_name",
                       value := (pieces value_delimiter v).getD 2 [] }] } := by
  have hlen : actor.fields.length = 3 := by
    have := congrArg List.length hn
    simpa [raw_actor_fields] using this
  simp only [record.parse, parseFields_zip, hn, hlen,
    derefs_init value_delimiter value_delimiter_ne_nil, take_append_replicate_eq]
  rfl

theorem callFields_ofRecord (t : Bytes) (r : record) :
    callFields (t, record_view.ofRecord r 0) = r.fields := by
  simp only [callFields, ofRecord_elems, Option.getD_some]

theorem directorCalls_rows (movie : record) : ∀ (vs : List Bytes) (director : record),
    director.fields.map field.name = raw_director_fields →
    (directorCalls movie vs director).map (fun c => (c.1, callFields c))
      = (vs.map (directorRows (movie.get 0).value)).flatten := by
  intro vs
  induction vs with
  | nil => intro director _; rfl
  | cons v vs ih =>
    intro director hn
    have hp := parse_director director v hn
    have hn2 : (director.parse v value_delimiter).1.fields.map field.name = raw_director_fields := by
      rw [parse_names, hn]
    simp only [directorCalls, List.map_cons, List.flatten_cons, callFields_ofRecord, ih _ hn2,
      directorRows, List.cons_append, List.nil_append]
    rw [hp]
    rfl

theorem actorCalls_rows (movie : record) : ∀ (vs : List Bytes) (actor : record),
    actor.fields.map field.name = raw_actor_fields →
    (actorCalls movie vs actor).map (fun c => (c.1, callFields c))
      = (vs.map (actorRows (movie.get 0).value)).flatten := by
  intro vs
  induction vs with
  | nil => intro actor _; rfl
  | cons v vs ih =>
    intro actor hn
    have hp := parse_actor actor v hn
    have hn2 : (actor.parse v value_delimiter).1.fields.map field.name = raw_actor_fields := by
      rw [parse_names, hn]
    simp only [actorCalls, List.map_cons, List.flatten_cons, callFields_ofRecord, ih _ hn2,
      actorRows, List.cons_append, List.nil_append]
    rw [hp]
    rfl

theorem callsOf_rows (db : DB) (movie : record) (line : Bytes)
    (hm : movie.fields.map field.name = raw_movie_fields) :
    (callsOf db movie line).map (fun c => (c.1, callFields c)) = lineRows db line := by
  have hv := movieOf_view db movie line hm
  have hf : callFields (cstr "movies",
      ({ view := movieOf db movie line, begin := 0, end_ := -2 } : record_view))
        = movieRow line (genreOf db line) := by
    simp only [callFields, hv, Option.getD_some]
  simp only [callsOf, List.map_cons, List.map_append, hf,
    directorCalls_rows _ _ _ (by rfl : (record.ofNames raw_director_fields).fields.map field.name
      = raw_director_fields),
    actorCalls_rows _ _ _ (by rfl : (record.ofNames raw_actor_fields).fields.map field.name
      = raw_actor_fields),
    movieOf_directors db movie line hm, movieOf_cast db movie line hm,
    movieOf_id db movie line hm, lineRows]

theorem lineRows_tables (db : DB) (line : Bytes) :
    (lineRows db line).map Prod.fst
      = [cstr "movies"]
        ++ ((subrecords record_delimiter ((pieces movie_delimiter line).getD 13 [])).map
            (fun _ => [cstr "people", cstr "directors"])).flatten
        ++ ((subrecords record_delimiter ((pieces movie_delimiter line).getD 14 [])).map
            (fun _ => [cstr "people", cstr "characters"])).flatten := by
  have h1 : ∀ (id : Bytes) (vs : List Bytes), ((vs.map (directorRows id)).flatten).map Prod.fst
      = (vs.map (fun _ => [cstr "people", cstr "directors"])).flatten := by
    intro id vs
    induction vs with
    | nil => rfl
    | cons v vs ih => simp only [List.map_cons, List.flatten_cons, List.map_append, ih]; rfl
  have h2 : ∀ (id : Bytes) (vs : List Bytes), ((vs.map (actorRows id)).flatten).map Prod.fst
      = (vs.map (fun _ => [cstr "people", cstr "characters"])).flatten := by
    intro id vs
    induction vs with
    | nil => rfl
    | cons v vs ih => simp only [List.map_cons, List.flatten_cons, List.map_append, ih]; rfl
  simp only [lineRows, List.map_cons, List.map_append, h1, h2, List.singleton_append,
    List.cons_append, List.nil_append]

theorem lineRows_length (db : DB) (line : Bytes) :
    (lineRows db line).length
      = 1 + 2 * (subrecords record_delimiter ((pieces movie_delimiter line).getD 13 [])).length
          + 2 * (subrecords record_delimiter ((pieces movie_delimiter line).getD 14 [])).length := by
  have := congrArg List.length (lineRows_tables db line)
  simp only [List.length_map, List.length_append, List.length_flatten, List.map_map,
    List.length_singleton] at this
  rw [this]
  simp [Function.comp_def]
  omega

theorem main_single_line_rows (db : DB) (db_name : Option Bytes) (line : Bytes) :
    main_ db db_name [line]
      = some (db.use db_name
          ++ (insertText db (cstr "movies") (movieRow line (genreOf db line))
          ++ ((lineRows db line).tail.map (fun r => insertText db r.1 r.2)).flatten)) := by
  have hm : (record.ofNames raw_movie_fields).fields.map field.name = raw_movie_fields := by
    decide
  have hrows := callsOf_rows db (record.ofNames raw_movie_fields) line hm
  have ht : (callsOf db (record.ofNames raw_movie_fields) line).tail.map
      (fun c => insertText db c.1 (callFields c))
      = (lineRows db line).tail.map (fun r => insertText db r.1 r.2) := by
    rw [← hrows]
    simp only [callsOf, List.map_cons, List.tail_cons, List.map_map]
    rfl
  rw [main_single_line, ht]

/-! ## Claims -/

/-- C1: after `record::parse(span, d)` with a non-empty delimiter, the field
names are unchanged, field `i` holds the piece `p_i` of the span for every `i`
below both the number of fields and the number of pieces, and every field at or
beyond the number of pieces holds a zero-length value, whatever it held before. -/
theorem parse_assigns_pieces (r : record) (span d : Bytes) (hd : d ≠ []) :
    (r.parse span d).1.fields.map field.name = r.fields.map field.name ∧
    (r.parse span d).1.size = r.size ∧
    ∀ i, i < r.size →
      (i < (pieces d span).length →
        ((r.parse span d).1.fields.map field.value)[i]? = (pieces d span)[i]?) ∧
      ((pieces d span).length ≤ i →
        ((r.parse span d).1.fields.map field.value)[i]? = some []) := by
  refine ⟨parseFields_names _ _, ?_, ?_⟩
  · have := congrArg List.length (parseFields_names r.fields (splitter.init span d))
    simpa [record.size, record.parse] using this
  · intro i hi
    rw [parse_values r span d hd, List.getElem?_take_of_lt hi]
    constructor
    · intro hm
      rw [List.getElem?_append_left hm]
    · intro hm
      rw [List.getElem?_append_right hm]
      rw [List.getElem?_replicate]
      have : i - (pieces d span).length < r.size := by omega
      simp [this]

theorem parse_assigns_pieces_witness :
    movie_delimiter ≠ [] ∧
    (sampleRecord.parse sampleSpan movie_delimiter).1.fields.map field.name
      = [cstr "id", cstr "title", cstr "genre"] ∧
    ((sampleRecord.parse sampleSpan movie_delimiter).1.fields.map field.value)[1]?
      = (pieces movie_delimiter sampleSpan)[1]? ∧
    ((sampleRecord.parse sampleSpan movie_delimiter).1.fields.map field.value)[2]?
      = some [] :=
  have h := parse_assigns_pieces sampleRecord sampleSpan movie_delimiter (by decide)
  ⟨by decide, h.1, (h.2.2 1 (by decide)).1 (by decide), (h.2.2 2 (by decide)).2 (by decide)⟩

/-- C2: round-trip law. For a line with `k` occurrences of the movie delimiter
the split has `k + 1` pieces; `record::parse` into a record of `k + 1` fields
assigns exactly these pieces, and joining the `k + 1` field values with the
delimiter gives back the line. -/
theorem parse_join_roundtrip (r : record) (line : Bytes)
    (hk : r.size = occurrences movie_delimiter line + 1) :
    (pieces movie_delimiter line).length = occurrences movie_delimiter line + 1 ∧
    (r.parse line movie_delimiter).1.fields.map field.value = pieces movie_delimiter line ∧
    ((r.parse line movie_delimiter).1.fields.map field.value).length
      = occurrences movie_delimiter line + 1 ∧
    joinWith movie_delimiter ((r.parse line movie_delimiter).1.fields.map field.value)
      = line := by
  have hlen := pieces_movie_length line
  have hv : (r.parse line movie_delimiter).1.fields.map field.value
      = pieces movie_delimiter line := by
    rw [parse_values r line movie_delimiter movie_delimiter_ne_nil]
    rw [List.take_append_of_le_length (by omega)]
    apply List.take_of_length_le
    omega
  refine ⟨hlen, hv, ?_, ?_⟩
  · rw [hv, hlen]
  · rw [hv]
    exact joinWith_piecesFuel movie_delimiter line.length line

theorem parse_join_roundtrip_witness :
    (record.ofNames [cstr "id", cstr "title"]).size
      = occurrences movie_delimiter sampleSpan + 1 ∧
    joinWith movie_delimiter
      (((record.ofNames [cstr "id", cstr "title"]).parse sampleSpan movie_delimiter).1.fields.map
        field.value) = sampleSpan :=
  ⟨by decide, (parse_join_roundtrip (record.ofNames [cstr "id", cstr "title"]) sampleSpan
    (by decide)).2.2.2⟩

/-- C3: the value output operator writes a single quote, the value with every
single quote doubled and every other character unchanged, and a single quote;
the value O-quote-Brien comes out with its quote doubled between two quotes. -/
theorem writeValue_doubles_quotes (v : Bytes) :
    writeValue v
      = [SQUOTE] ++ (v.map (fun c => if c = SQUOTE then [SQUOTE, SQUOTE] else [c])).flatten
          ++ [SQUOTE]
    ∧ writeValue (cstr "O'Brien") = cstr "'O''Brien'" := by
  constructor
  · simp only [writeValue, quote, quotedOut, quotedBody_eq]
  · decide

/-- C4: lock-step omission. For a view over the fields `fs`, the column list
and the value list written by `insert` are the names and the values of the
same fields, those of `fs` whose value is not empty, in schema order: the two
lists have the same length, one entry per field with a non-empty value, entry
`i` of each comes from the same field, every value entry is the non-empty value
of a field of the view, and a field with a zero-length value contributes
nothing: both lists are the ones written for the view without that field, so no
NULL stands in its place. -/
theorem insert_lock_step (db : DB) (table : Bytes) (v : record_view) (fs : List field)
    (h : v.elems = some fs) :
    writeNames v.names = some (joinWith (cstr ", ") ((emitted fs).map field.name)) ∧
    writeValues v.values = some (joinWith (cstr ", ") ((emitted fs).map field.value)) ∧
    (∃ a b c, db.insert table v
      = some (a ++ joinWith (cstr ", ") ((emitted fs).map field.name) ++ b
          ++ joinWith (cstr ", ") ((emitted fs).map field.value) ++ c)) ∧
    ((emitted fs).map field.name).length = ((emitted fs).map field.value).length ∧
    ((emitted fs).map field.name).length = fs.countP (fun f => !f.is_empty) ∧
    List.zip ((emitted fs).map field.name) ((emitted fs).map field.value)
      = (emitted fs).map (fun f => (f.name, f.value)) ∧
    (emitted fs).Sublist fs ∧
    (∀ f, f ∈ emitted fs ↔ f ∈ fs ∧ f.value ≠ []) ∧
    (∀ x ∈ (emitted fs).map field.value, x ≠ [] ∧ ∃ f ∈ fs, f.value = x) ∧
    (∀ pre post f, fs = pre ++ f :: post → f.value = [] →
      emitted fs = emitted (pre ++ post)) := by
  refine ⟨writeNames_eq _ fs h, writeValues_eq _ fs h, ?_, by simp, ?_, ?_, ?_, mem_emitted fs,
    ?_, ?_⟩
  · cases db with
    | MySQL =>
      refine ⟨cstr "INSERT IGNORE " ++ table ++ cstr "(", cstr ")" ++ cstr " VALUES (",
        cstr ")" ++ DB.endl, ?_⟩
      simp only [DB.insert, MySQL_insert_eq table v fs h, List.append_assoc]
    | PostgreSQL =>
      refine ⟨cstr "INSERT INTO " ++ table ++ cstr "(", cstr ")" ++ cstr " VALUES (",
        cstr ") ON CONFLICT DO NOTHING" ++ DB.endl, ?_⟩
      simp only [DB.insert, PostgreSQL_insert_eq table v fs h, List.append_assoc]
  · simp only [List.length_map, emitted, List.countP_eq_length_filter]
  · exact zip_map_same _ _ _
  · exact List.filter_sublist _
  · intro x hx
    obtain ⟨f, hf, rfl⟩ := List.mem_map.mp hx
    have := (mem_emitted fs f).mp hf
    exact ⟨this.2, f, this.1, rfl⟩
  · intro pre post f hfs hf
    subst hfs
    simp [emitted, List.filter_append, List.filter_cons, field.is_empty, hf]

theorem insert_lock_step_witness :
    sampleView.elems = some sampleView.view.fields ∧
    writeNames sampleView.names = some (cstr "id, title") ∧
    writeValues sampleView.values = some (cstr "7, Up") :=
  have h := insert_lock_step DB.MySQL (cstr "movies") sampleView sampleView.view.fields
    (by decide)
  ⟨by decide, h.1, h.2.1⟩

/-- C5 as stated fails: the MySQL statement has no INTO keyword, and neither
dialect writes a blank between the table name and the column list. -/
theorem insert_form_counterexample :
    emitted sampleView.view.fields
      = [{ name := cstr "id", value := cstr "7" }, { name := cstr "title", value := cstr "Up" }] ∧
    MySQL.insert (cstr "movies") sampleView
      = some (cstr "INSERT IGNORE movies(id, title) VALUES (7, Up);\n") ∧
    (∀ vals, MySQL.insert (cstr "movies") sampleView
      ≠ some (cstr "INSERT IGNORE INTO movies (id, title) VALUES (" ++ vals ++ cstr ");\n")) ∧
    PostgreSQL.insert (cstr "movies") sampleView
      = some (cstr "INSERT INTO movies(id, title) VALUES (7, Up) ON CONFLICT DO NOTHING;\n") ∧
    (∀ vals, PostgreSQL.insert (cstr "movies") sampleView
      ≠ some (cstr "INSERT INTO movies (id, title) VALUES (" ++ vals
          ++ cstr ") ON CONFLICT DO NOTHING;\n")) := by
  refine ⟨by decide, by decide, ?_, by decide, ?_⟩
  · intro vals hv
    have h1 : MySQL.insert (cstr "movies") sampleView
        = some (cstr "INSERT IGNORE movies(id, title) VALUES (7, Up);\n") := by decide
    rw [h1] at hv
    have h2 := congrArg (List.take 15) (Option.some.inj hv)
    rw [List.append_assoc, List.take_append_of_le_length (by decide)] at h2
    exact absurd h2 (by decide)
  · intro vals hv
    have h1 : PostgreSQL.insert (cstr "movies") sampleView
        = some (cstr "INSERT INTO movies(id, title) VALUES (7, Up) ON CONFLICT DO NOTHING;\n") := by
      decide
    rw [h1] at hv
    have h2 := congrArg (List.take 19) (Option.some.inj hv)
    rw [List.append_assoc, List.take_append_of_le_length (by decide)] at h2
    exact absurd h2 (by decide)

/-- C5 amended: for a view over the fields `fs`, `insert` writes one statement
followed by a newline; under MySQL it is INSERT IGNORE, a blank, the table name
followed at once by the parenthesised names, VALUES and the parenthesised
values, and a semicolon; under PostgreSQL it starts with INSERT INTO and has ON
CONFLICT DO NOTHING before the semicolon. The names and the values are those of
the fields whose value is not empty, one entry each, joined by a comma and a
blank; a value entry is the bytes of the value. -/
theorem insert_statement_form (table : Bytes) (v : record_view) (fs : List field)
    (h : v.elems = some fs) :
    MySQL.insert table v = some (cstr "INSERT IGNORE " ++ table ++ cstr "("
      ++ joinWith (cstr ", ") ((emitted fs).map field.name) ++ cstr ") VALUES ("
      ++ joinWith (cstr ", ") ((emitted fs).map field.value) ++ cstr ");\n") ∧
    PostgreSQL.insert table v = some (cstr "INSERT INTO " ++ table ++ cstr "("
      ++ joinWith (cstr ", ") ((emitted fs).map field.name) ++ cstr ") VALUES ("
      ++ joinWith (cstr ", ") ((emitted fs).map field.value)
      ++ cstr ") ON CONFLICT DO NOTHING;\n") := by
  have e1 : cstr ") VALUES (" = cstr ")" ++ cstr " VALUES (" := by decide
  have e2 : cstr ");\n" = cstr ")" ++ DB.endl := by decide
  have e3 : cstr ") ON CONFLICT DO NOTHING;\n"
      = cstr ") ON CONFLICT DO NOTHING" ++ DB.endl := by decide
  rw [MySQL_insert_eq table v fs h, PostgreSQL_insert_eq table v fs h, e1, e2, e3]
  simp only [List.append_assoc, and_self]

theorem insert_statement_form_witness :
    sampleView.elems = some sampleView.view.fields ∧
    PostgreSQL.insert (cstr "movies") sampleView
      = some (cstr "INSERT INTO movies(id, title) VALUES (7, Up) ON CONFLICT DO NOTHING;\n") :=
  ⟨by decide,
   (insert_statement_form (cstr "movies") sampleView sampleView.view.fields (by decide)).2⟩

/-- C7: for a table name and a view over the fields `fs`, the MySQL text
without its leading INSERT IGNORE and the PostgreSQL text without its leading
INSERT INTO and without the ON CONFLICT DO NOTHING that stands before the final
semicolon are the same text. -/
theorem dialects_differ_in_clause (table : Bytes) (v : record_view) (fs : List field)
    (h : v.elems = some fs) :
    ∃ m p body,
      MySQL.insert table v = some m ∧ PostgreSQL.insert table v = some p ∧
      stripLeading (cstr "INSERT IGNORE ") m = some body ∧
      (stripLeading (cstr "INSERT INTO ") p).bind
        (stripClause (cstr " ON CONFLICT DO NOTHING") (cstr ";\n")) = some body := by
  have e : cstr ") ON CONFLICT DO NOTHING" = cstr ")" ++ cstr " ON CONFLICT DO NOTHING" := by
    decide
  have e0 : DB.endl = cstr ";\n" := rfl
  refine ⟨_, _, table ++ cstr "(" ++ joinWith (cstr ", ") ((emitted fs).map field.name)
      ++ cstr ")" ++ cstr " VALUES ("
      ++ joinWith (cstr ", ") ((emitted fs).map field.value) ++ cstr ")"
      ++ cstr ";\n",
    MySQL_insert_eq table v fs h, PostgreSQL_insert_eq table v fs h, ?_, ?_⟩
  · rw [e0]
    simp only [List.append_assoc]
    exact stripLeading_append _ _
  · rw [e0, e]
    simp only [List.append_assoc]
    rw [stripLeading_append]
    simp only [Option.some_bind]
    have := stripClause_append (cstr " ON CONFLICT DO NOTHING") (cstr ";\n")
      (table ++ (cstr "(" ++ (joinWith (cstr ", ") ((emitted fs).map field.name)
        ++ (cstr ")" ++ (cstr " VALUES ("
        ++ (joinWith (cstr ", ") ((emitted fs).map field.value) ++ cstr ")"))))))
    simp only [List.append_assoc] at this
    exact this

theorem dialects_differ_in_clause_witness :
    sampleView.elems = some sampleView.view.fields ∧
    ∃ m p body,
      MySQL.insert (cstr "movies") sampleView = some m ∧
      PostgreSQL.insert (cstr "movies") sampleView = some p ∧
      stripLeading (cstr "INSERT IGNORE ") m = some body ∧
      (stripLeading (cstr "INSERT INTO ") p).bind
        (stripClause (cstr " ON CONFLICT DO NOTHING") (cstr ";\n")) = some body :=
  ⟨by decide,
   dialects_differ_in_clause (cstr "movies") sampleView sampleView.view.fields (by decide)⟩

/-- C6 at a genre field whose first name holds a blank: the names are `Sci Fi`
and the empty text, their comma-joined list is `Sci Fi,`, but `genres` returns
`Sci`, the first word of that list. -/
theorem genres_stops_at_blank :
    genreNames sampleGenre = [cstr "Sci Fi", []] ∧
    joinWith (cstr ",") (genreNames sampleGenre) = cstr "Sci Fi," ∧
    genres sampleGenre = some (cstr "Sci") ∧
    genres sampleGenre ≠ some (joinWith (cstr ",") (genreNames sampleGenre)) := by
  decide

/-- C9: for a line, with `ds` the sub-records of its directors field (piece
13 of the line) and `cs` those of its cast field (piece 14), both loops of the
driver enumerate exactly these sub-records, and the insert calls it makes are,
in order, the movie row, then for each element of `ds` in input order a people
row followed by a directors row, then for each element of `cs` a people row
followed by a characters row (`lineRows`); it writes one statement per row in
that order, `1 + 2 * ds.length + 2 * cs.length` in all, each ending with a
semicolon and a newline. -/
theorem line_statement_order (db : DB) (movie : record) (line : Bytes)
    (hm : movie.fields.map field.name = raw_movie_fields) :
    ∃ ds cs m calls stmts,
      ds = subrecords record_delimiter ((pieces movie_delimiter line).getD 13 []) ∧
      cs = subrecords record_delimiter ((pieces movie_delimiter line).getD 14 []) ∧
      ((movie.parse line movie_delimiter).1.get (-2)).value
        = (pieces movie_delimiter line).getD 13 [] ∧
      ((movie.parse line movie_delimiter).1.get (-1)).value
        = (pieces movie_delimiter line).getD 14 [] ∧
      splitter.loop (((movie.parse line movie_delimiter).1.get (-2)).value).length
        (splitter.init ((movie.parse line movie_delimiter).1.get (-2)).value record_delimiter)
        = some ds ∧
      splitter.loop (((movie.parse line movie_delimiter).1.get (-1)).value).length
        (splitter.init ((movie.parse line movie_delimiter).1.get (-1)).value record_delimiter)
        = some cs ∧
      lineCalls db movie line = some (m, calls) ∧
      (∀ c ∈ calls, c.2.elems = some (callFields c)) ∧
      calls.map (fun c => (c.1, callFields c)) = lineRows db line ∧
      lineRows db line
        = (cstr "movies", movieRow line (genreOf db line))
          :: ((ds.map (directorRows ((pieces movie_delimiter line).getD 0 []))).flatten
            ++ (cs.map (actorRows ((pieces movie_delimiter line).getD 0 []))).flatten) ∧
      (lineRows db line).map Prod.fst
        = [cstr "movies"] ++ (ds.map (fun _ => [cstr "people", cstr "directors"])).flatten
            ++ (cs.map (fun _ => [cstr "people", cstr "characters"])).flatten ∧
      lineStatements db movie line = some (m, stmts) ∧
      stmts = (lineRows db line).map (fun r => insertText db r.1 r.2) ∧
      stmts.length = 1 + 2 * ds.length + 2 * cs.length ∧
      ∀ s ∈ stmts, (cstr ";\n").isSuffixOf s = true := by
  have hd : ((movie.parse line movie_delimiter).1.get (-2)).value
      = (pieces movie_delimiter line).getD 13 [] := by
    rw [parse_movie movie line hm]; rfl
  have hc : ((movie.parse line movie_delimiter).1.get (-1)).value
      = (pieces movie_delimiter line).getD 14 [] := by
    rw [parse_movie movie line hm]; rfl
  have h1 : splitter.loop (((movie.parse line movie_delimiter).1.get (-2)).value).length
      (splitter.init ((movie.parse line movie_delimiter).1.get (-2)).value record_delimiter)
      = some (subrecords record_delimiter ((pieces movie_delimiter line).getD 13 [])) := by
    rw [loop_init record_delimiter record_delimiter_ne_nil, hd]
  have h2 : splitter.loop (((movie.parse line movie_delimiter).1.get (-1)).value).length
      (splitter.init ((movie.parse line movie_delimiter).1.get (-1)).value record_delimiter)
      = some (subrecords record_delimiter ((pieces movie_delimiter line).getD 14 [])) := by
    rw [loop_init record_delimiter record_delimiter_ne_nil, hc]
  have h3 := lineCalls_eq db movie line
  have hval : ∀ c ∈ callsOf db movie line, c.2.elems = some (callFields c) := by
    intro c hcm
    obtain ⟨fs, hfs⟩ := callsOf_valid db movie line hm c hcm
    simp only [callFields, hfs, Option.getD_some]
  have hrows := callsOf_rows db movie line hm
  have h4 : lineStatements db movie line = some (movieOf db movie line,
      (lineRows db line).map (fun r => insertText db r.1 r.2)) := by
    rw [lineStatements_eq db movie line hm, ← hrows, List.map_map]
    rfl
  have h7 : ((lineRows db line).map (fun r => insertText db r.1 r.2)).length
      = 1 + 2 * (subrecords record_delimiter ((pieces movie_delimiter line).getD 13 [])).length
          + 2 * (subrecords record_delimiter ((pieces movie_delimiter line).getD 14 [])).length := by
    rw [List.length_map, lineRows_length]
  have h8 : ∀ s ∈ (lineRows db line).map (fun r => insertText db r.1 r.2),
      (cstr ";\n").isSuffixOf s = true := by
    intro s hs
    obtain ⟨c, _, rfl⟩ := List.mem_map.mp hs
    exact insertText_terminated db c.1 c.2
  exact ⟨_, _, _, _, _, rfl, rfl, hd, hc, h1, h2, h3, hval, hrows, rfl, lineRows_tables db line,
    h4, rfl, h7, h8⟩

set_option maxRecDepth 100000 in
theorem line_statement_order_witness :
    (record.ofNames raw_movie_fields).fields.map field.name = raw_movie_fields ∧
    subrecords record_delimiter ((pieces movie_delimiter sampleLine).getD 13 [])
      = [cstr "5" ++ value_delimiter ++ cstr "Pete"] ∧
    subrecords record_delimiter ((pieces movie_delimiter sampleLine).getD 14 [])
      = [cstr "9" ++ value_delimiter ++ cstr "Ed" ++ value_delimiter ++ cstr "Carl"] ∧
    (lineStatements DB.MySQL (record.ofNames raw_movie_fields) sampleLine).map Prod.snd
      = some [cstr "INSERT IGNORE movies(id, title, genre) VALUES (7, Up, Action,Sci-Fi);\n",
              cstr "INSERT IGNORE people(id, full_name) VALUES (5, Pete);\n",
              cstr "INSERT IGNORE directors(movie_id, director_id) VALUES (7, 5);\n",
              cstr "INSERT IGNORE people(id, full_name) VALUES (9, Ed);\n",
              cstr "INSERT IGNORE characters(movie_id, actor_id, character_name) VALUES (7, 9, Carl);\n"] ∧
    ∃ (ds cs stmts : List Bytes),
      (lineStatements DB.MySQL (record.ofNames raw_movie_fields) sampleLine).map Prod.snd
        = some stmts ∧
      stmts = (lineRows DB.MySQL sampleLine).map (fun r => insertText DB.MySQL r.1 r.2) ∧
      stmts.length = 1 + 2 * ds.length + 2 * cs.length := by
  obtain ⟨ds, cs, m, calls, stmts, _, _, _, _, _, _, _, _, _, _, _, h12, h13, h14, _⟩ :=
    line_statement_order DB.MySQL (record.ofNames raw_movie_fields) sampleLine (by decide)
  exact ⟨by decide, by decide, by decide, by decide, ds, cs, stmts, by rw [h12]; rfl, h13, h14⟩

/-- C8 as stated fails on a line with an empty genre field: the MySQL genre
value is empty, so the column `genre` is left out of the MySQL statement, while
the PostgreSQL value is a pair of braces and the column is written. -/
theorem dialect_columns_counterexample :
    (lineCalls DB.MySQL (record.ofNames raw_movie_fields) (cstr "7")).map
        (fun p => p.2.map columnsOf) = some [[cstr "id"]] ∧
    (lineCalls DB.PostgreSQL (record.ofNames raw_movie_fields) (cstr "7")).map
        (fun p => p.2.map columnsOf) = some [[cstr "id", cstr "genre"]] ∧
    (lineStatements DB.MySQL (record.ofNames raw_movie_fields) (cstr "7")).map Prod.snd
      = some [cstr "INSERT IGNORE movies(id) VALUES (7);\n"] ∧
    (lineStatements DB.PostgreSQL (record.ofNames raw_movie_fields) (cstr "7")).map Prod.snd
      = some [cstr "INSERT INTO movies(id, genre) VALUES (7, \x7b\x7d) ON CONFLICT DO NOTHING;\n"] := by
  decide

/-- C8 amended: for a line whose genre list is not empty, the insert calls made
with the mysql dialect and with the postgres dialect correspond one to one, on
the same tables, with the same column names in the same order; every call after
the first has the same view under both dialects, and the first ranges over the
same fields except that the genre value is the list under mysql and the list
between braces under postgres; each dialect writes one statement per call. -/
theorem dialects_same_columns (movie : record) (line : Bytes)
    (hm : movie.fields.map field.name = raw_movie_fields)
    (hg : genresText ((movie.parse line movie_delimiter).1.get (-3)) ≠ []) :
    ∃ m1 m2 c1 c2 g,
      g = genresText ((movie.parse line movie_delimiter).1.get (-3)) ∧
      lineCalls DB.MySQL movie line = some (m1, c1) ∧
      lineCalls DB.PostgreSQL movie line = some (m2, c2) ∧
      c1.length = c2.length ∧
      c1.map Prod.fst = c2.map Prod.fst ∧
      c1.map columnsOf = c2.map columnsOf ∧
      c1.tail = c2.tail ∧
      c1.head?.map callFields = some (movieRow line g) ∧
      c2.head?.map callFields = some (movieRow line (cstr "\x7b" ++ g ++ cstr "\x7d")) ∧
      lineStatements DB.MySQL movie line
        = some (m1, c1.map (fun c => insertText DB.MySQL c.1 (callFields c))) ∧
      lineStatements DB.PostgreSQL movie line
        = some (m2, c2.map (fun c => insertText DB.PostgreSQL c.1 (callFields c))) := by
  have hgen : genresText ((movie.parse line movie_delimiter).1.get (-3))
      = genresText { name := cstr "genre", value := (pieces movie_delimiter line).getD 12 [] } := by
    rw [parse_movie movie line hm]; rfl
  rw [hgen] at hg
  have hid : ((movieOf DB.MySQL movie line).get 0).value
      = ((movieOf DB.PostgreSQL movie line).get 0).value := by
    rw [movieOf_id _ movie line hm, movieOf_id _ movie line hm]
  have hdir : ((movieOf DB.MySQL movie line).get (-2)).value
      = ((movieOf DB.PostgreSQL movie line).get (-2)).value := by
    rw [movieOf_directors _ movie line hm, movieOf_directors _ movie line hm]
  have hcast : ((movieOf DB.MySQL movie line).get (-1)).value
      = ((movieOf DB.PostgreSQL movie line).get (-1)).value := by
    rw [movieOf_cast _ movie line hm, movieOf_cast _ movie line hm]
  have htail : (callsOf DB.MySQL movie line).tail = (callsOf DB.PostgreSQL movie line).tail := by
    simp only [callsOf, List.tail_cons, hdir, hcast]
    rw [directorCalls_congr _ _ hid, actorCalls_congr _ _ hid]
  have hv1 := movieOf_view DB.MySQL movie line hm
  have hv2 := movieOf_view DB.PostgreSQL movie line hm
  have hg1 : genreOf DB.MySQL line
      = genresText { name := cstr "genre", value := (pieces movie_delimiter line).getD 12 [] } :=
    rfl
  have hg2 : genreOf DB.PostgreSQL line
      = cstr "\x7b" ++ genresText
          { name := cstr "genre", value := (pieces movie_delimiter line).getD 12 [] }
        ++ cstr "\x7d" := rfl
  have hh1 : (callsOf DB.MySQL movie line).head?.map callFields
      = some (movieRow line (genreOf DB.MySQL line)) := by
    simp only [callsOf, List.head?_cons, Option.map_some', callFields, hv1, Option.getD_some]
  have hh2 : (callsOf DB.PostgreSQL movie line).head?.map callFields
      = some (movieRow line (genreOf DB.PostgreSQL line)) := by
    simp only [callsOf, List.head?_cons, Option.map_some', callFields, hv2, Option.getD_some]
  have hcol : (callsOf DB.MySQL movie line).map columnsOf
      = (callsOf DB.PostgreSQL movie line).map columnsOf := by
    have e1 : callsOf DB.MySQL movie line
        = (cstr "movies", { view := movieOf DB.MySQL movie line, begin := 0, end_ := -2 })
          :: (callsOf DB.MySQL movie line).tail := rfl
    have e2 : callsOf DB.PostgreSQL movie line
        = (cstr "movies", { view := movieOf DB.PostgreSQL movie line, begin := 0, end_ := -2 })
          :: (callsOf DB.PostgreSQL movie line).tail := rfl
    rw [e1, e2, htail]
    simp only [List.map_cons, columnsOf, callFields, hv1, hv2, Option.getD_some]
    rw [movieRow_columns line _ (by rw [hg1]; exact hg),
      movieRow_columns line _ (by rw [hg2]; simp [cstr])]
  have htab : (callsOf DB.MySQL movie line).map Prod.fst
      = (callsOf DB.PostgreSQL movie line).map Prod.fst := by
    have e1 : callsOf DB.MySQL movie line
        = (cstr "movies", { view := movieOf DB.MySQL movie line, begin := 0, end_ := -2 })
          :: (callsOf DB.MySQL movie line).tail := rfl
    have e2 : callsOf DB.PostgreSQL movie line
        = (cstr "movies", { view := movieOf DB.PostgreSQL movie line, begin := 0, end_ := -2 })
          :: (callsOf DB.PostgreSQL movie line).tail := rfl
    rw [e1, e2, htail]
    rfl
  have hlen : (callsOf DB.MySQL movie line).length = (callsOf DB.PostgreSQL movie line).length := by
    have := congrArg List.length htab
    simpa using this
  have hs1 : lineStatements DB.MySQL movie line = some (movieOf DB.MySQL movie line,
      (callsOf DB.MySQL movie line).map (fun c => insertText DB.MySQL c.1 (callFields c))) := by
    simp only [lineStatements, lineCalls_eq,
      statements_eq DB.MySQL _ (callsOf_valid DB.MySQL movie line hm), Option.map_some']
  have hs2 : lineStatements DB.PostgreSQL movie line = some (movieOf DB.PostgreSQL movie line,
      (callsOf DB.PostgreSQL movie line).map
        (fun c => insertText DB.PostgreSQL c.1 (callFields c))) := by
    simp only [lineStatements, lineCalls_eq,
      statements_eq DB.PostgreSQL _ (callsOf_valid DB.PostgreSQL movie line hm),
      Option.map_some']
  rw [hg1] at hh1
  rw [hg2] at hh2
  rw [← hgen] at hh1 hh2
  exact ⟨_, _, _, _, _, Eq.refl _, lineCalls_eq DB.MySQL movie line,
    lineCalls_eq DB.PostgreSQL movie line, hlen, htab, hcol, htail, hh1, hh2, hs1, hs2⟩

set_option maxRecDepth 100000 in
theorem dialects_same_columns_witness :
    (record.ofNames raw_movie_fields).fields.map field.name = raw_movie_fields ∧
    genresText (((record.ofNames raw_movie_fields).parse sampleLine movie_delimiter).1.get (-3))
      ≠ [] ∧
    ∃ m1 m2 c1 c2 g,
      g = genresText
        (((record.ofNames raw_movie_fields).parse sampleLine movie_delimiter).1.get (-3)) ∧
      lineCalls DB.MySQL (record.ofNames raw_movie_fields) sampleLine = some (m1, c1) ∧
      lineCalls DB.PostgreSQL (record.ofNames raw_movie_fields) sampleLine = some (m2, c2) ∧
      c1.length = c2.length ∧
      c1.map Prod.fst = c2.map Prod.fst ∧
      c1.map columnsOf = c2.map columnsOf ∧
      c1.tail = c2.tail ∧
      c1.head?.map callFields = some (movieRow sampleLine g) ∧
      c2.head?.map callFields
        = some (movieRow sampleLine (cstr "\x7b" ++ g ++ cstr "\x7d")) ∧
      lineStatements DB.MySQL (record.ofNames raw_movie_fields) sampleLine
        = some (m1, c1.map (fun c => insertText DB.MySQL c.1 (callFields c))) ∧
      lineStatements DB.PostgreSQL (record.ofNames raw_movie_fields) sampleLine
        = some (m2, c2.map (fun c => insertText DB.PostgreSQL c.1 (callFields c))) ∧
      c1.map (fun c => insertText DB.MySQL c.1 (callFields c))
        = [cstr "INSERT IGNORE movies(id, title, genre) VALUES (7, Up, Action,Sci-Fi);\n",
           cstr "INSERT IGNORE people(id, full_name) VALUES (5, Pete);\n",
           cstr "INSERT IGNORE directors(movie_id, director_id) VALUES (7, 5);\n",
           cstr "INSERT IGNORE people(id, full_name) VALUES (9, Ed);\n",
           cstr "INSERT IGNORE characters(movie_id, actor_id, character_name) VALUES (7, 9, Carl);\n"] ∧
      c2.map (fun c => insertText DB.PostgreSQL c.1 (callFields c))
        = [cstr "INSERT INTO movies(id, title, genre) VALUES (7, Up, \x7bAction,Sci-Fi\x7d) ON CONFLICT DO NOTHING;\n",
           cstr "INSERT INTO people(id, full_name) VALUES (5, Pete) ON CONFLICT DO NOTHING;\n",
           cstr "INSERT INTO directors(movie_id, director_id) VALUES (7, 5) ON CONFLICT DO NOTHING;\n",
           cstr "INSERT INTO people(id, full_name) VALUES (9, Ed) ON CONFLICT DO NOTHING;\n",
           cstr "INSERT INTO characters(movie_id, actor_id, character_name) VALUES (7, 9, Carl) ON CONFLICT DO NOTHING;\n"] := by
  obtain ⟨m1, m2, c1, c2, g, h1, h2, h3, h4, h5, h6, h7, h8, h9, h10, h11⟩ :=
    dialects_same_columns (record.ofNames raw_movie_fields) sampleLine (by decide) (by decide)
  refine ⟨by decide, by decide, m1, m2, c1, c2, g, h1, h2, h3, h4, h5, h6, h7, h8, h9, h10, h11,
    ?_, ?_⟩
  · have e : (lineStatements DB.MySQL (record.ofNames raw_movie_fields) sampleLine).map Prod.snd
        = some [cstr "INSERT IGNORE movies(id, title, genre) VALUES (7, Up, Action,Sci-Fi);\n",
           cstr "INSERT IGNORE people(id, full_name) VALUES (5, Pete);\n",
           cstr "INSERT IGNORE directors(movie_id, director_id) VALUES (7, 5);\n",
           cstr "INSERT IGNORE people(id, full_name) VALUES (9, Ed);\n",
           cstr "INSERT IGNORE characters(movie_id, actor_id, character_name) VALUES (7, 9, Carl);\n"] := by
      decide
    rw [h10] at e
    exact Option.some.inj e
  · have e : (lineStatements DB.PostgreSQL (record.ofNames raw_movie_fields) sampleLine).map
          Prod.snd
        = some [cstr "INSERT INTO movies(id, title, genre) VALUES (7, Up, \x7bAction,Sci-Fi\x7d) ON CONFLICT DO NOTHING;\n",
           cstr "INSERT INTO people(id, full_name) VALUES (5, Pete) ON CONFLICT DO NOTHING;\n",
           cstr "INSERT INTO directors(movie_id, director_id) VALUES (7, 5) ON CONFLICT DO NOTHING;\n",
           cstr "INSERT INTO people(id, full_name) VALUES (9, Ed) ON CONFLICT DO NOTHING;\n",
           cstr "INSERT INTO characters(movie_id, actor_id, character_name) VALUES (7, 9, Carl) ON CONFLICT DO NOTHING;\n"] := by
      decide
    rw [h11] at e
    exact Option.some.inj e

/-- C10: for a record `r` of `n >= 2` fields, `record_view(r, 0, -2)` resolves
its end to `n - 2` and its name and value ranges are the fields `0 .. n - 3` in
order. For a line, the first insert call of the driver is into movies with such
a view of the movie record: it ranges over thirteen fields named by the first
thirteen schema names, and the statement has no column `directors` or `cast`. -/
theorem view_drops_last_two (r : record) (h2 : 2 ≤ r.size) (hs : r.size < 2 ^ 64)
    (db : DB) (movie : record) (line : Bytes)
    (hm : movie.fields.map field.name = raw_movie_fields) :
    r.resolve (-2) = r.size - 2 ∧
    ({ view := r, begin := 0, end_ := -2 } : record_view).names.elems
      = some (r.fields.take (r.size - 2)) ∧
    ({ view := r, begin := 0, end_ := -2 } : record_view).values.elems
      = some (r.fields.take (r.size - 2)) ∧
    ∃ m rest fs,
      lineCalls db movie line
        = some (m, (cstr "movies", { view := m, begin := 0, end_ := -2 }) :: rest) ∧
      ({ view := m, begin := 0, end_ := -2 } : record_view).elems = some fs ∧
      fs.map field.name = raw_movie_fields.take 13 ∧
      db.insert (cstr "movies") { view := m, begin := 0, end_ := -2 }
        = some (insertText db (cstr "movies") fs) ∧
      (∀ n ∈ (emitted fs).map field.name, n ∈ raw_movie_fields.take 13) ∧
      cstr "directors" ∉ (emitted fs).map field.name ∧
      cstr "cast" ∉ (emitted fs).map field.name := by
  have hres : r.resolve (-2) = r.size - 2 := by
    have := resolve_neg r 2 (by omega) h2 hs
    simpa using this
  have h0 : r.resolve 0 = 0 := resolve_natCast r 0
  have hel : ({ fields := r.fields, start := r.resolve 0, end_ := r.resolve (-2) } : range).elems
      = some (r.fields.take (r.size - 2)) := by
    have hle : r.size - 2 ≤ r.fields.length := by
      simp only [record.size]; omega
    simp [range.elems, h0, hres, hle]
  have hsub : ∀ n ∈ (emitted (movieRow line (genreOf db line))).map field.name,
      n ∈ raw_movie_fields.take 13 := by
    intro n hn
    have := emitted_names_subset _ n hn
    rw [movieRow_names] at this
    exact this
  refine ⟨hres, hel, hel, movieOf db movie line, _, movieRow line (genreOf db line),
    lineCalls_eq db movie line, movieOf_view db movie line hm, movieRow_names _ _,
    DB_insert_eq db _ _ _ (movieOf_view db movie line hm), hsub, ?_, ?_⟩
  · intro hc
    have := hsub _ hc
    revert this
    decide
  · intro hc
    have := hsub _ hc
    revert this
    decide

set_option maxRecDepth 100000 in
theorem view_drops_last_two_witness :
    2 ≤ sampleRecord.size ∧ sampleRecord.size < 2 ^ 64 ∧
    (record.ofNames raw_movie_fields).fields.map field.name = raw_movie_fields ∧
    sampleRecord.resolve (-2) = sampleRecord.size - 2 ∧
    ({ view := sampleRecord, begin := 0, end_ := -2 } : record_view).names.elems
      = some (sampleRecord.fields.take (sampleRecord.size - 2)) ∧
    (lineStatements DB.MySQL (record.ofNames raw_movie_fields) sampleLine).map
        (fun p => p.2.head?)
      = some (some (cstr "INSERT IGNORE movies(id, title, genre) VALUES (7, Up, Action,Sci-Fi);\n")) :=
  have h := view_drops_last_two sampleRecord (by decide) (by decide) DB.MySQL
    (record.ofNames raw_movie_fields) sampleLine (by decide)
  ⟨by decide, by decide, by decide, h.1, h.2.1, by decide⟩

/-- C11 as stated fails: over the span `a` followed by the record delimiter
(one occurrence) the enumeration loop yields the single view `a`, not two
views; the zero-length field after the delimiter is only among the pieces. -/
theorem loop_trailing_counterexample :
    occurrences record_delimiter sampleTrailing = 1 ∧
    splitter.loop sampleTrailing.length (splitter.init sampleTrailing record_delimiter)
      = some [cstr "a"] ∧
    pieces record_delimiter sampleTrailing = [cstr "a", []] := by
  decide

/-- C11 amended: over a span that ends with the record delimiter, the loop
`while (it.begin < it.record.size())` of `genres` and of the director and cast
passes yields one view per occurrence of the delimiter, namely every piece of
the span but the last; the zero-length piece after the final delimiter is not
enumerated. -/
theorem loop_suppresses_trailing_empty (t : Bytes) :
    ∃ views,
      splitter.loop (t ++ record_delimiter).length
          (splitter.init (t ++ record_delimiter) record_delimiter) = some views
      ∧ pieces record_delimiter (t ++ record_delimiter) = views ++ [[]]
      ∧ views.length = occurrences record_delimiter (t ++ record_delimiter) := by
  have hnil : cutFirst record_delimiter [] = none := by decide
  have h := pieces_before_delim record_delimiter record_delimiter_ne_nil
    record_delimiter_noOverlap [] hnil (t ++ record_delimiter).length t
    (by simp)
  obtain ⟨X, hX⟩ := h
  simp only [List.append_nil] at hX
  have hp : pieces record_delimiter (t ++ record_delimiter) = X ++ [[]] := hX
  have hlen := piecesFuel_length record_delimiter record_delimiter_ne_nil
    record_delimiter_no_overlap (t ++ record_delimiter).length (t ++ record_delimiter)
    (Nat.le_refl _)
  refine ⟨X, ?_, hp, ?_⟩
  · rw [loop_init record_delimiter record_delimiter_ne_nil, subrecords, hp,
      dropTrailingEmpty_append_empty]
  · rw [hX] at hlen
    simp only [List.length_append, List.length_singleton] at hlen
    omega

/-- C12: once `begin` has reached `record.size()` after some applications of
`operator++` to a freshly constructed splitter, `end` equals `record.size()`
too, any number of further `operator++` leaves the splitter unchanged, and
`operator*` yields the zero-length view. -/
theorem splitter_terminal_state (s d : Bytes) (n m : Nat)
    (h : (splitter.advance n (splitter.init s d)).begin = s.length) :
    (splitter.advance n (splitter.init s d)).end_ = s.length ∧
    splitter.advance m (splitter.advance n (splitter.init s d))
      = splitter.advance n (splitter.init s d) ∧
    (splitter.advance m (splitter.advance n (splitter.init s d))).begin = s.length ∧
    (splitter.advance m (splitter.advance n (splitter.init s d))).end_ = s.length ∧
    (splitter.advance m (splitter.advance n (splitter.init s d))).deref = [] := by
  obtain ⟨pos, _, _, e⟩ := advance_reachable s d n 0 (Nat.zero_le _)
  rw [splitter_init_eq, e] at h ⊢
  have hpos : pos = s.length := h
  subst hpos
  rw [advance_terminal]
  exact ⟨atPos_terminal_end s d, rfl, rfl, atPos_terminal_end s d, atPos_terminal_deref s d⟩

theorem splitter_terminal_state_witness :
    (splitter.advance 1 (splitter.init sampleTrailing record_delimiter)).begin
      = sampleTrailing.length ∧
    splitter.advance 5 (splitter.advance 1 (splitter.init sampleTrailing record_delimiter))
      = splitter.advance 1 (splitter.init sampleTrailing record_delimiter) ∧
    (splitter.advance 5
      (splitter.advance 1 (splitter.init sampleTrailing record_delimiter))).deref = [] :=
  have h := splitter_terminal_state sampleTrailing record_delimiter 1 5 (by decide)
  ⟨by decide, h.2.1, h.2.2.2.2⟩

/-- C13 as stated fails: a record of three fields parsed from a span of one
piece returns 3, not the minimum 1. -/
theorem parse_return_counterexample :
    (pieces movie_delimiter (cstr "7")).length = 1 ∧
    (sampleRecord.parse (cstr "7") movie_delimiter).2 = 3 ∧
    (sampleRecord.parse (cstr "7") movie_delimiter).2
      ≠ min (pieces movie_delimiter (cstr "7")).length sampleRecord.size := by
  decide

/-- C13 amended: `record::parse` returns the number of fields of the record,
whatever the number of pieces of the span; all these fields have been assigned. -/
theorem parse_returns_size (r : record) (span d : Bytes) :
    (r.parse span d).2 = r.size ∧ (r.parse span d).1.size = r.size := by
  constructor
  · rfl
  · have := congrArg List.length (parseFields_names r.fields (splitter.init span d))
    simpa [record.size, record.parse] using this

/-- C14: on a record of `n` fields (`n` below the range of `size_t`), `r[i]` is
the field at position `i` for `0 <= i < n` and the field at position `n + i`
for `-n <= i < 0`; `r[-1]` is the last field, and on a record with the fifteen
movie schema names `r[-3]`, `r[-2]`, `r[-1]` are named genre, directors, cast. -/
theorem index_access (r : record) (i : Int) (hs : r.size < 2 ^ 64) :
    (0 ≤ i → i < r.size → r.fields[i.toNat]? = some (r.get i)) ∧
    (-(r.size : Int) ≤ i → i < 0 → r.fields[((r.size : Int) + i).toNat]? = some (r.get i)) ∧
    (1 ≤ r.size → r.fields.getLast? = some (r.get (-1))) ∧
    (r.fields.map field.name = raw_movie_fields →
      (r.get (-3)).name = cstr "genre" ∧ (r.get (-2)).name = cstr "directors"
        ∧ (r.get (-1)).name = cstr "cast") := by
  have hneg : ∀ j : Int, -(r.size : Int) ≤ j → j < 0 →
      r.fields[((r.size : Int) + j).toNat]? = some (r.get j) := by
    intro j hlo hj
    apply get_of_lt r j _ (resolve_negative r j hs hlo hj)
    have : ((r.size : Int) + j).toNat < r.size := by omega
    exact this
  refine ⟨?_, hneg i, ?_, ?_⟩
  · intro h0 hlt
    apply get_of_lt r i _ (resolve_nonneg r i h0)
    have : i.toNat < r.size := by omega
    exact this
  · intro h1
    have := hneg (-1) (by omega) (by omega)
    rw [List.getLast?_eq_getElem?]
    have e : ((r.size : Int) + -1).toNat = r.fields.length - 1 := by
      simp only [record.size] at h1 ⊢
      omega
    rw [e] at this
    exact this
  · intro hm
    have hlen : r.size = 15 := by
      have := congrArg List.length hm
      simpa [record.size, raw_movie_fields] using this
    have key : ∀ (j : Int) (k : Nat) (nm : Bytes), -(15 : Int) ≤ j → j < 0 →
        ((15 : Int) + j).toNat = k → raw_movie_fields[k]? = some nm → (r.get j).name = nm := by
      intro j k nm hlo hj hk hnm
      have h1 := hneg j (by rw [hlen]; exact hlo) hj
      rw [hlen] at h1
      simp only [Nat.cast_ofNat] at h1
      have h2 : ((r.fields.map field.name)[((15 : Int) + j).toNat]?)
          = some (r.get j).name := by
        rw [List.getElem?_map, h1]; rfl
      rw [hm, hk, hnm] at h2
      exact (Option.some.inj h2).symm
    exact ⟨key (-3) 12 _ (by decide) (by decide) (by decide) (by decide),
      key (-2) 13 _ (by decide) (by decide) (by decide) (by decide),
      key (-1) 14 _ (by decide) (by decide) (by decide) (by decide)⟩

theorem index_access_witness :
    sampleRecord.size < 2 ^ 64 ∧
    sampleRecord.fields[((sampleRecord.size : Int) + (-1)).toNat]?
      = some (sampleRecord.get (-1)) ∧
    sampleRecord.fields.getLast? = some (sampleRecord.get (-1)) :=
  have h := index_access sampleRecord (-1) (by decide)
  ⟨by decide, h.2.1 (by decide) (by decide), h.2.2.1 (by decide)⟩

/-- C15 as stated fails: the constructor takes any two integers; over a record
of three fields the view `(2, 1)` has its start after its end and the view
`(0, 7)` has its end beyond the record. -/
theorem view_invariant_counterexample :
    sampleRecord.size = 3 ∧
    ({ view := sampleRecord, begin := 2, end_ := 1 } : record_view).names.start = 2 ∧
    ({ view := sampleRecord, begin := 2, end_ := 1 } : record_view).names.end_ = 1 ∧
    ({ view := sampleRecord, begin := 0, end_ := 7 } : record_view).values.end_ = 7 ∧
    ¬ (({ view := sampleRecord, begin := 2, end_ := 1 } : record_view).names.start
        ≤ ({ view := sampleRecord, begin := 2, end_ := 1 } : record_view).names.end_) ∧
    ¬ (({ view := sampleRecord, begin := 0, end_ := 7 } : record_view).values.end_
        ≤ sampleRecord.size) := by
  decide

/-- C15 amended: the constructor checks nothing; when the two arguments, a
negative one counted from `r.size()`, are ordered inside the record, the range
handed to the name and value projections is exactly that pair and satisfies
`0 <= start <= end <= r.size()`; this is the case of every view the driver
constructs. -/
theorem view_range_invariant (r : record) (first last : Int) (hs : r.size < 2 ^ 64)
    (hf : 0 ≤ (if first < 0 then (r.size : Int) + first else first))
    (hfl : (if first < 0 then (r.size : Int) + first else first)
      ≤ (if last < 0 then (r.size : Int) + last else last))
    (hl : (if last < 0 then (r.size : Int) + last else last) ≤ r.size) :
    (({ view := r, begin := first, end_ := last } : record_view).names.start : Int)
      = (if first < 0 then (r.size : Int) + first else first) ∧
    (({ view := r, begin := first, end_ := last } : record_view).names.end_ : Int)
      = (if last < 0 then (r.size : Int) + last else last) ∧
    ({ view := r, begin := first, end_ := last } : record_view).values
      = ({ view := r, begin := first, end_ := last } : record_view).names ∧
    ({ view := r, begin := first, end_ := last } : record_view).names.start
      ≤ ({ view := r, begin := first, end_ := last } : record_view).names.end_ ∧
    ({ view := r, begin := first, end_ := last } : record_view).names.end_ ≤ r.size ∧
    (∀ (db : DB) (movie : record) (line : Bytes),
      movie.fields.map field.name = raw_movie_fields →
      ∀ c ∈ callsOf db movie line,
        c.2.names.start ≤ c.2.names.end_ ∧ c.2.names.end_ ≤ c.2.view.size) := by
  have h1 : ((r.resolve first : Nat) : Int)
      = (if first < 0 then (r.size : Int) + first else first) := by
    by_cases hn : first < 0
    · simp only [hn, if_true] at hf ⊢
      rw [resolve_negative r first hs (by omega) hn]
      omega
    · simp only [hn, if_false] at hf ⊢
      rw [resolve_nonneg r first (by omega)]
      omega
  have h2 : ((r.resolve last : Nat) : Int)
      = (if last < 0 then (r.size : Int) + last else last) := by
    have hl0 : 0 ≤ (if last < 0 then (r.size : Int) + last else last) := le_trans hf hfl
    by_cases hn : last < 0
    · simp only [hn, if_true] at hl0 ⊢
      rw [resolve_negative r last hs (by omega) hn]
      omega
    · simp only [hn, if_false] at hl0 ⊢
      rw [resolve_nonneg r last (by omega)]
      omega
  refine ⟨h1, h2, rfl, ?_, ?_, ?_⟩
  · have : ((r.resolve first : Nat) : Int) ≤ ((r.resolve last : Nat) : Int) := by
      rw [h1, h2]; exact hfl
    exact Int.ofNat_le.mp this
  · have : ((r.resolve last : Nat) : Int) ≤ (r.size : Int) := by
      rw [h2]; exact hl
    exact Int.ofNat_le.mp this
  · intro db movie line hm c hc
    obtain ⟨fs, hfs⟩ := callsOf_valid db movie line hm c hc
    exact elems_some_bounds c.2.names fs hfs

theorem view_range_invariant_witness :
    sampleRecord.size < 2 ^ 64 ∧
    ({ view := sampleRecord, begin := 0, end_ := -2 } : record_view).names.start
      ≤ ({ view := sampleRecord, begin := 0, end_ := -2 } : record_view).names.end_ ∧
    ({ view := sampleRecord, begin := 0, end_ := -2 } : record_view).names.end_
      ≤ sampleRecord.size :=
  have h := view_range_invariant sampleRecord 0 (-2) (by decide) (by decide) (by decide)
    (by decide)
  ⟨by decide, h.2.2.2.1, h.2.2.2.2.1⟩

/-- C16: for a genre field of zero length `genres` returns the empty string;
`PostgreSQL::list` of it is a pair of braces and `MySQL::list` of it is empty;
for every string `s`, `MySQL::list(s)` is `s` and `PostgreSQL::list(s)` is `s`
between braces. -/
theorem genres_of_empty_field (n s : Bytes) :
    genres { name := n, value := [] } = some [] ∧
    (genres { name := n, value := [] }).map PostgreSQL.list = some (cstr "\x7b\x7d") ∧
    (genres { name := n, value := [] }).map MySQL.list = some [] ∧
    MySQL.list s = s ∧
    PostgreSQL.list s = cstr "\x7b" ++ s ++ cstr "\x7d" := by
  have h : genres { name := n, value := [] } = some [] := by
    rw [genres_eq]
    rfl
  refine ⟨h, ?_, ?_, rfl, rfl⟩
  · rw [h]; rfl
  · rw [h]; rfl

/-- C17: for a span in which the delimiter does not occur, the first view is
the whole span and one advance puts the splitter in its terminal state. For any
span and non-empty delimiter, the splitter advanced once per piece before the
last one stands at the last piece: its view is that piece, which runs to the
end of the span, and one more advance is terminal. In particular, in the span
`t`, delimiter, `l` where `l` holds no delimiter (and the delimiter cannot
overlap itself), that state begins just after the delimiter, ends at the end of
the span and yields `l` in full; when `l` is not empty the enumeration loop
returns it as its last view. -/
theorem unterminated_field_in_full (s d t l : Bytes) :
    (occurrences d s = 0 →
      (splitter.init s d).deref = s ∧
      (splitter.init s d).end_ = s.length ∧
      (splitter.init s d).next.begin = s.length ∧
      (splitter.init s d).next.next = (splitter.init s d).next ∧
      (splitter.init s d).next.deref = []) ∧
    (d ≠ [] →
      ∃ X last, pieces d s = X ++ [last] ∧ occurrences d last = 0 ∧
        last.length ≤ s.length ∧
        s.drop (s.length - last.length) = last ∧
        (splitter.advance X.length (splitter.init s d)).begin = s.length - last.length ∧
        (splitter.advance X.length (splitter.init s d)).end_ = s.length ∧
        (splitter.advance X.length (splitter.init s d)).deref = last ∧
        (splitter.advance X.length (splitter.init s d)).next.begin = s.length) ∧
    (d ≠ [] → noOverlap d → occurrences d l = 0 →
      ∃ X, pieces d (t ++ (d ++ l)) = X ++ [l] ∧
        (splitter.advance X.length (splitter.init (t ++ (d ++ l)) d)).begin
          = (t ++ d).length ∧
        (splitter.advance X.length (splitter.init (t ++ (d ++ l)) d)).end_
          = (t ++ (d ++ l)).length ∧
        (splitter.advance X.length (splitter.init (t ++ (d ++ l)) d)).deref = l ∧
        (splitter.advance X.length (splitter.init (t ++ (d ++ l)) d)).next.begin
          = (t ++ (d ++ l)).length ∧
        (l ≠ [] →
          splitter.loop (t ++ (d ++ l)).length (splitter.init (t ++ (d ++ l)) d)
            = some (X ++ [l]))) := by
  refine ⟨?_, ?_, ?_⟩
  · intro h
    have h0 : occurrences d (s.drop 0) = 0 := by simpa using h
    obtain ⟨h1, h2, h3⟩ := atPos_last_field s d 0 (Nat.zero_le _) h0
    rw [splitter_init_eq, h3]
    refine ⟨by simpa using h1, h2, rfl, atPos_terminal_next s d, atPos_terminal_deref s d⟩
  · intro hd
    obtain ⟨X, last, hX, hocc, hll, hadv, hdrop⟩ := last_piece_reached d hd s
    have hocc2 : occurrences d (s.drop (s.length - last.length)) = 0 := by rw [hdrop]; exact hocc
    obtain ⟨h1, h2, h3⟩ := atPos_last_field s d (s.length - last.length) (Nat.sub_le _ _) hocc2
    refine ⟨X, last, hX, hocc, hll, hdrop, ?_, ?_, ?_, ?_⟩
    · rw [hadv]; rfl
    · rw [hadv]; exact h2
    · rw [hadv, h1, hdrop]
    · rw [hadv, h3]; rfl
  · intro hd hnb hl
    obtain ⟨X, hX, hadv⟩ := last_field_reached d hd hnb t l hl
    have hpos : (t ++ d).length ≤ (t ++ (d ++ l)).length := by simp
    have hdrop : (t ++ (d ++ l)).drop (t ++ d).length = l := by
      rw [← List.append_assoc, List.drop_left]
    have hocc2 : occurrences d ((t ++ (d ++ l)).drop (t ++ d).length) = 0 := by
      rw [hdrop]; exact hl
    obtain ⟨h1, h2, h3⟩ := atPos_last_field (t ++ (d ++ l)) d (t ++ d).length hpos hocc2
    refine ⟨X, hX, ?_, ?_, ?_, ?_, ?_⟩
    · rw [hadv]; rfl
    · rw [hadv]; exact h2
    · rw [hadv, h1, hdrop]
    · rw [hadv, h3]; rfl
    · intro hne
      rw [loop_init d hd, subrecords, hX, dropTrailingEmpty_append_nonempty l hne]

theorem unterminated_field_in_full_witness :
    occurrences movie_delimiter (cstr "Up") = 0 ∧
    (splitter.init (cstr "Up") movie_delimiter).deref = cstr "Up" ∧
    (splitter.init (cstr "Up") movie_delimiter).next.begin = (cstr "Up").length ∧
    movie_delimiter ≠ [] ∧ noOverlap movie_delimiter ∧
    ∃ X, pieces movie_delimiter (cstr "7" ++ (movie_delimiter ++ cstr "Up")) = X ++ [cstr "Up"] ∧
      (splitter.advance X.length
        (splitter.init (cstr "7" ++ (movie_delimiter ++ cstr "Up")) movie_delimiter)).deref
        = cstr "Up" ∧
      splitter.loop (cstr "7" ++ (movie_delimiter ++ cstr "Up")).length
        (splitter.init (cstr "7" ++ (movie_delimiter ++ cstr "Up")) movie_delimiter)
        = some (X ++ [cstr "Up"]) :=
  have h := unterminated_field_in_full (cstr "Up") movie_delimiter (cstr "7") (cstr "Up")
  have h3 := h.2.2 (by decide) movie_delimiter_noOverlap (by decide)
  ⟨by decide, (h.1 (by decide)).1, (h.1 (by decide)).2.2.1, by decide, movie_delimiter_noOverlap,
   h3.elim (fun X hX => ⟨X, hX.1, hX.2.2.2.1, hX.2.2.2.2.2 (by decide)⟩)⟩

set_option maxRecDepth 100000 in
/-- C18 as stated fails: on the scenario line the table name of the movies
statement is followed at once by the parenthesis of the column list, so the
output never has the form USE moviesdb; INSERT IGNORE movies, a blank and a
parenthesis, whatever follows. -/
theorem scenario_counterexample :
    main_ DB.MySQL (some (cstr "moviesdb")) [scenarioLine]
      = some (cstr "USE moviesdb;\nINSERT IGNORE movies(id, title, genre) VALUES (1, Inception, Action,Sci-Fi);\n") ∧
    (∀ rest, main_ DB.MySQL (some (cstr "moviesdb")) [scenarioLine]
      ≠ some (cstr "USE moviesdb;\nINSERT IGNORE movies (" ++ rest)) := by
  have h1 : main_ DB.MySQL (some (cstr "moviesdb")) [scenarioLine]
      = some (cstr "USE moviesdb;\nINSERT IGNORE movies(id, title, genre) VALUES (1, Inception, Action,Sci-Fi);\n") := by
    decide
  refine ⟨h1, ?_⟩
  intro rest hv
  rw [h1] at hv
  have h2 := congrArg (List.take 36) (Option.some.inj hv)
  rw [List.take_append_of_le_length (by decide)] at h2
  exact absurd h2 (by decide)

/-- C18 amended: with the mysql dialect and the database name moviesdb, a line
whose id is `1`, whose title is `Inception` and whose genre field holds the two
sub-records named `Action` and `Sci-Fi` gives the line USE moviesdb; and then
the movies statement INSERT IGNORE movies(id, title, .., genre) VALUES (1,
Inception, .., Action,Sci-Fi); where the table name is followed at once by the
parenthesis, the columns between title and genre are those of the fields 2 to
11 whose value is not empty, with their values in the same order, and genre is
the last column; the statements of the directors and of the cast follow.
Without a database name nothing is written before the statements. -/
theorem scenario_output (db : DB) (line : Bytes) (lines : List Bytes)
    (h0 : (pieces movie_delimiter line).getD 0 [] = cstr "1")
    (h1 : (pieces movie_delimiter line).getD 1 [] = cstr "Inception")
    (h12 : (pieces movie_delimiter line).getD 12 [] = scenarioGenre) :
    (∃ mid rest,
      mid = emitted (((movieFields line).take 12).drop 2) ∧
      rest = ((lineRows DB.MySQL line).tail.map
        (fun r => insertText DB.MySQL r.1 r.2)).flatten ∧
      main_ DB.MySQL (some (cstr "moviesdb")) [line]
        = some (cstr "USE moviesdb;\n"
          ++ (cstr "INSERT IGNORE movies("
            ++ joinWith (cstr ", ")
                (cstr "id" :: cstr "title" :: (mid.map field.name ++ [cstr "genre"]))
            ++ cstr ") VALUES ("
            ++ joinWith (cstr ", ")
                (cstr "1" :: cstr "Inception"
                  :: (mid.map field.value ++ [cstr "Action,Sci-Fi"]))
            ++ cstr ");\n")
          ++ rest)) ∧
    main_ db none lines = mainLoop db (record.ofNames raw_movie_fields) lines := by
  constructor
  · have hg : genreOf DB.MySQL line = cstr "Action,Sci-Fi" := by
      simp only [genreOf, DB.list, MySQL.list, h12, scenarioGenre_text]
    have hu : DB.use DB.MySQL (some (cstr "moviesdb")) = cstr "USE moviesdb;\n" := by decide
    have hi : cstr "INSERT IGNORE " ++ cstr "movies" ++ cstr "(" = cstr "INSERT IGNORE movies(" := by
      decide
    have hem : emitted (movieRow line (cstr "Action,Sci-Fi"))
        = { name := cstr "id", value := cstr "1" }
          :: { name := cstr "title", value := cstr "Inception" }
          :: (emitted (((movieFields line).take 12).drop 2)
              ++ [{ name := cstr "genre", value := cstr "Action,Sci-Fi" }]) := by
      rw [movieRow_split, h0, h1, emitted_cons_nonempty _ _ (by decide),
        emitted_cons_nonempty _ _ (by decide), emitted_append_single _ _ (by decide)]
    refine ⟨emitted (((movieFields line).take 12).drop 2), _, rfl, rfl, ?_⟩
    rw [main_single_line_rows, hg, hu]
    simp only [insertText, hem, List.map_cons, List.map_append, List.map_nil]
    rw [hi]
    simp only [List.append_assoc]
  · cases db with
    | MySQL =>
      simp only [main_, DB.use, MySQL.use, List.nil_append]
      cases mainLoop DB.MySQL (record.ofNames raw_movie_fields) lines <;> rfl
    | PostgreSQL =>
      simp only [main_, DB.use, PostgreSQL.use, List.nil_append]
      cases mainLoop DB.PostgreSQL (record.ofNames raw_movie_fields) lines <;> rfl

set_option maxRecDepth 100000 in
theorem scenario_output_witness :
    (pieces movie_delimiter scenarioLine).getD 0 [] = cstr "1" ∧
    (pieces movie_delimiter scenarioLine).getD 1 [] = cstr "Inception" ∧
    (pieces movie_delimiter scenarioLine).getD 12 [] = scenarioGenre ∧
    main_ DB.PostgreSQL none [scenarioLine]
      = mainLoop DB.PostgreSQL (record.ofNames raw_movie_fields) [scenarioLine] :=
  ⟨by decide, by decide, by decide,
   (scenario_output DB.PostgreSQL scenarioLine [scenarioLine] (by decide) (by decide)
     (by decide)).2⟩

/-- C19 as stated fails for the null pointer: with a length above zero
`sql_quote` takes neither branch and prints nothing, not a quoted text. -/
theorem sql_quote_null_counterexample :
    sql_quote none 1 = some [] ∧
    [SQUOTE].isPrefixOf ((sql_quote none 1).getD []) = false := by
  decide

/-- C19 amended: in the plain-C reference `sql_quote(str, 0)` prints the bare
keyword NULL for every pointer; for a length above zero and a non-null `str`
with at least `length` bytes it prints a quote, the first `length` bytes with
every quote doubled, and a quote, which is the text the C++ value operator
writes for that value; for a null `str` and a length above zero it prints
nothing. -/
theorem sql_quote_text (str : Option Bytes) (mem : Bytes) (length : Nat)
    (hpos : 0 < length) (hlen : length ≤ mem.length) :
    sql_quote str 0 = some (cstr "NULL") ∧
    sql_quote str 0 ≠ some (cstr "''") ∧
    sql_quote (some mem) length
      = some ([SQUOTE]
          ++ ((mem.take length).map (fun c => if c = SQUOTE then [SQUOTE, SQUOTE] else [c])).flatten
          ++ [SQUOTE]) ∧
    sql_quote (some mem) length = some (writeValue (mem.take length)) ∧
    sql_quote none length = some [] := by
  have hne : ¬ (length = 0) := by omega
  have h0 : sql_quote str 0 = some (cstr "NULL") := by simp [sql_quote]
  have hw : sql_quote (some mem) length = some (writeValue (mem.take length)) := by
    simp only [sql_quote, hne, if_false, sqlQuoteLoop_eq length mem hlen, Option.map_some',
      writeValue, quote, quotedOut]
  refine ⟨h0, ?_, ?_, hw, ?_⟩
  · rw [h0]
    decide
  · rw [hw]
    simp only [writeValue, quote, quotedOut, quotedBody_eq]
  · simp [sql_quote, hne]

theorem sql_quote_text_witness :
    0 < 7 ∧ 7 ≤ (cstr "O'Brien, Jr").length ∧
    sql_quote (some (cstr "O'Brien, Jr")) 7 = some (writeValue ((cstr "O'Brien, Jr").take 7)) ∧
    sql_quote none 0 = some (cstr "NULL") :=
  have h := sql_quote_text none (cstr "O'Brien, Jr") 7 (by decide) (by decide)
  ⟨by decide, by decide, h.2.2.2.1, h.1⟩

/-- C20: an `ostream_iterator` constructed with the separator `d` to which the
items `x_1 .. x_k` are written, each by an assignment followed by an increment
(the way of `std::copy`) or by `*out++ = x`, appends to the stream the items
joined by `d`: no separator before the first item and none after the last;
with no item nothing is written. `std::copy_if` does the same with the items
its predicate lets through. -/
theorem ostream_iterator_joins {α : Type} (write : α → Bytes) (d : Bytes) (items : List α)
    (os : Bytes) (pred : field → Bool) (wf : field → Bytes) (fs : List field) :
    ostream_iterator.copy write items { delimiter := some d, count := 0 } os
      = os ++ joinWith d (items.map write) ∧
    ostream_iterator.putAll write items { delimiter := some d, count := 0 } os
      = os ++ joinWith d (items.map write) ∧
    ostream_iterator.copy write ([] : List α) { delimiter := some d, count := 0 } [] = [] ∧
    ostream_iterator.putAll write ([] : List α) { delimiter := some d, count := 0 } [] = [] ∧
    copy_if wf pred fs { delimiter := some d, count := 0 } []
      = joinWith d ((fs.filter pred).map wf) := by
  have hc : ostream_iterator.copy write items { delimiter := some d, count := 0 } os
      = os ++ joinWith d (items.map write) := by
    cases items with
    | nil => simp [ostream_iterator.copy, joinWith]
    | cons x xs =>
      simp only [ostream_iterator.copy, ostream_iterator.inc, ostream_iterator.assign]
      rw [copy_count_pos, List.map_cons, joinWith_cons_flatten]
      simp [List.map_map, Function.comp_def]
  refine ⟨hc, ?_, rfl, rfl, copy_if_join wf pred d fs⟩
  rw [putAll_eq_copy, hc]

/-- C21: splitter bounds. In the state after construction and after any number
of `operator++`, `begin <= end <= record.size()`; the view of `operator*` has
length `end - begin` and is the slice of the span from offset `begin` to offset
`end`. -/
theorem splitter_bounds (s d : Bytes) (n : Nat) :
    (splitter.advance n (splitter.init s d)).record = s ∧
    (splitter.advance n (splitter.init s d)).begin
      ≤ (splitter.advance n (splitter.init s d)).end_ ∧
    (splitter.advance n (splitter.init s d)).end_ ≤ s.length ∧
    (splitter.advance n (splitter.init s d)).deref.length
      = (splitter.advance n (splitter.init s d)).end_
        - (splitter.advance n (splitter.init s d)).begin ∧
    s = s.take (splitter.advance n (splitter.init s d)).begin
        ++ (splitter.advance n (splitter.init s d)).deref
        ++ s.drop (splitter.advance n (splitter.init s d)).end_ := by
  obtain ⟨pos, hpos, _, e⟩ := advance_reachable s d n 0 (Nat.zero_le _)
  rw [splitter_init_eq, e]
  obtain ⟨h1, h2⟩ := atPos_bounds s d pos hpos
  have hb : (splitter.atPos s d pos).begin = pos := rfl
  have hr : (splitter.atPos s d pos).record = s := rfl
  have hd : (splitter.atPos s d pos).deref
      = (s.drop pos).take ((splitter.atPos s d pos).end_ - pos) := rfl
  refine ⟨hr, by rw [hb]; exact h1, h2, ?_, ?_⟩
  · rw [hd, hb, List.length_take, List.length_drop]
    omega
  · rw [hd, hb]
    have e1 : s.drop (splitter.atPos s d pos).end_
        = (s.drop pos).drop ((splitter.atPos s d pos).end_ - pos) := by
      rw [List.drop_drop]
      congr 1
      omega
    rw [e1, List.append_assoc, List.take_append_drop, List.take_append_drop]

/-- C22: for a delimiter of length at least 1, an `operator++` applied in a
state reached from the constructor where `begin < record.size()` strictly
increases `begin`; the loop `while (it.begin < it.record.size())` over a span
ends, after at most `record.size()` iterations. -/
theorem splitter_progress (s d : Bytes) (n : Nat) (hd : 1 ≤ d.length) :
    ((splitter.advance n (splitter.init s d)).begin < s.length →
      (splitter.advance n (splitter.init s d)).begin
        < (splitter.advance n (splitter.init s d)).next.begin) ∧
    ∃ views, splitter.loop s.length (splitter.init s d) = some views
      ∧ views.length ≤ s.length := by
  constructor
  · obtain ⟨pos, hpos, _, e⟩ := advance_reachable s d n 0 (Nat.zero_le _)
    rw [splitter_init_eq, e]
    intro h
    have hb : (splitter.atPos s d pos).begin = pos := rfl
    rw [hb] at h ⊢
    rw [atPos_next_begin s d pos h]
    have := (atPos_bounds s d pos hpos).1
    omega
  · have hne : d ≠ [] := by
      intro h0
      rw [h0] at hd
      simp at hd
    have h := loop_init d hne s
    exact ⟨_, h, loop_length_le _ _ _ h⟩

theorem splitter_progress_witness :
    1 ≤ record_delimiter.length ∧
    (splitter.advance 0 (splitter.init sampleTrailing record_delimiter)).begin
      < (splitter.advance 0 (splitter.init sampleTrailing record_delimiter)).next.begin ∧
    ∃ views,
      splitter.loop sampleTrailing.length (splitter.init sampleTrailing record_delimiter)
        = some views
      ∧ views.length ≤ sampleTrailing.length :=
  have h := splitter_progress sampleTrailing record_delimiter 0 (by decide)
  ⟨by decide, h.1 (by decide), h.2⟩

set_option maxRecDepth 100000 in
/-- C23 on a first line whose genre field is `1`, `Action` and then the two
sub-records `X` and `Y` without a value delimiter: the raw field has 18 bytes,
so `genres` is allocated 18 bytes; `parse_record` leaves the name marker of the
previous sub-record in place, `Action` is appended three times, and the list
with its terminating NUL needs 21 bytes. -/
theorem genre_buffer_overflow :
    genrePacking overflowLine 0 raw_movie raw_genre
      = some { fieldLength := 18, capacity := 18,
               built := some (cstr "Action,Action,Action") } ∧
    (cstr "Action,Action,Action").length + 1 = 21 ∧
    ¬ ((cstr "Action,Action,Action").length + 1 ≤ 18) := by
  decide

set_option maxRecDepth 100000 in
/-- C24 on the last line `7`, delimiter, of an input without a final newline,
where `main` passes the address of the last byte as `end`: the text between
`line` and `end` has no whole delimiter, so it is one piece, yet field 0
receives only `7` and field 1 is written, with a start after `end` and the
length `end - line` wrapped around. -/
theorem parse_record_straddle :
    pieces TRIANGLE_BULLET (straddleLine.take (straddleLine.length - 1))
      = [straddleLine.take (straddleLine.length - 1)] ∧
    straddleLine.take (straddleLine.length - 1) ≠ cstr "7" ∧
    ((parse_record straddleLine 0 (straddleLine.length - 1) TRIANGLE_BULLET raw_movie 15).2.map
        (fun f => f.marker)).take 3
      = [{ begin := some 0, length := 1 }, { begin := some 4, length := 2 ^ 64 - 1 },
         { begin := none, length := 0 }] ∧
    (raw_movie.map (fun f => f.marker)).take 3
      = [{ begin := none, length := 0 }, { begin := none, length := 0 },
         { begin := none, length := 0 }] := by
  decide

end Rennequin
